import Mathlib

/-!
# Verification of the portal-verkle state-trie core

A shallow embedding, in Lean 4, of the commitment-bearing data structures of
the `morph-dev/portal-verkle` repository, together with proofs and refutations
of the specification's claims about them.

The embedding is parametric in the cryptographic primitives: the Banderwagon
scalar field `Fr` is an arbitrary commutative ring, the Banderwagon group
`Point` an arbitrary additive commutative group that is an `Fr`-module, and a
`CommitEnv` packages the fixed CRS generators `G i`, the scalar-field hash
`map_to_scalar_field` (written `hash`), the little-endian interpretation of a
stem as a scalar, and the low/high split of a 32-byte trie value.  The only
algebraic fact assumed of the hash is the one the code and spec rely on: the
zero point hashes to the zero scalar.  All structure mirrors the Rust source:

* `Pvt.*`    — the `portal-verkle-trie` crate (`src/nodes/leaf.rs`);
* `Bridge.*` — the `portal-bridge` crate (`src/verkle_trie/nodes/branch.rs`);
* `Pv.*`     — the `portal-verkle` crate (`src/verkle_trie/nodes/branch.rs`,
               `src/types/witness.rs`, `src/verkle_trie/error.rs`);
* `Genesis.*`— the `portal-bridge` genesis expander (`src/types/genesis.rs`).

Rust panics (branch-depth overflow, out-of-bounds stem indexing) are modelled
by `Option`/dedicated result constructors.  The recursive descent of
`insert`/`update` into a freshly constructed branch (the leaf-split cascade)
is a well-founded recursion on `31 - depth`; it is written as a separate
function (`insertChain`/`updateChain`) and proved extensionally equal to the
main function applied to the freshly built branch, certifying the unfolding.
-/

set_option maxHeartbeats 1000000
set_option maxRecDepth 100000
set_option linter.unusedSectionVars false
set_option linter.unnecessarySeqFocus false

namespace PortalVerkle

/-- One byte, the index type of branch children and leaf suffixes. -/
abbrev Byte := Fin 256

/-- A stem: the first 31 bytes of a trie key (`verkle_core::Stem`). -/
abbrev Stem := Fin 31 → Byte

/-- `stem[d]` with the Rust panic on out-of-bounds modelled as `none`. -/
def stemGet (s : Stem) (d : ℕ) : Option Byte :=
  if h : d < 31 then some (s ⟨d, h⟩) else none

/-- A 32-byte trie key: 31 stem bytes plus one suffix byte. -/
structure TrieKey where
  stem : Stem
  suffix : Byte

/-- `key[d]`: bytes `0..31` come from the stem, byte `31` is the suffix,
and any larger index panics (`none`). -/
def keyGet (k : TrieKey) (d : ℕ) : Option Byte :=
  if h : d < 31 then some (k.stem ⟨d, h⟩)
  else if d = 31 then some k.suffix
  else none

/-- The commitment primitives the trie is built over: the 256 CRS generators,
`map_to_scalar_field` (`hash`), the stem-as-scalar interpretation and the
low/high value split.  `hash_zero` is the fact both the spec ("the zero point
hashes to zero") and the code rely on. -/
structure CommitEnv (Fr Point Value : Type) [CommRing Fr] [AddCommGroup Point]
    [Module Fr Point] where
  G : Fin 256 → Point
  hash : Point → Fr
  stemScalar : Stem → Fr
  split : Value → Fr × Fr
  hash_zero : hash 0 = 0

variable {Fr Point Value : Type} [CommRing Fr] [AddCommGroup Point] [Module Fr Point]

/-- Base index `2*i` used for the low half of a value inside `c1`/`c2`. -/
def lowIndex (i : Fin 128) : Fin 256 := ⟨2 * i.val, by omega⟩

/-- Base index `2*i + 1` used for the high half of a value inside `c1`/`c2`. -/
def highIndex (i : Fin 128) : Fin 256 := ⟨2 * i.val + 1, by omega⟩

namespace Pvt

/-! ## The `portal-verkle-trie` leaf node (`src/nodes/leaf.rs`) -/

/-- `portal-verkle-trie`'s `LeafNode`. -/
structure LeafNode (Point Value : Type) where
  marker : ℕ
  stem : Stem
  commitment : Point
  c1 : Point
  c2 : Point
  children : Fin 256 → Option Value

variable (env : CommitEnv Fr Point Value)

/-- The `suffix_commitment` closure of `LeafNode::new_with_childrent`: the
sparse multi-scalar multiplication over the present children of one half,
with the low/high parts of child `i` placed at bases `2i` and `2i+1`. -/
def suffixCommitment (children : Fin 128 → Option Value) : Point :=
  ∑ i : Fin 128,
    match children i with
    | none => 0
    | some v => (env.split v).1 • env.G (lowIndex i) + (env.split v).2 • env.G (highIndex i)

/-- The first 128 children of a leaf. -/
def firstHalf (children : Fin 256 → Option Value) : Fin 128 → Option Value :=
  fun i => children ⟨i.val, by omega⟩

/-- The second 128 children of a leaf. -/
def secondHalf (children : Fin 256 → Option Value) : Fin 128 → Option Value :=
  fun i => children ⟨128 + i.val, by omega⟩

/-- `LeafNode::new_with_childrent`: computes `c1`, `c2` as sparse sums over
the two halves and the outer commitment as
`1·G₀ + stem·G₁ + hash(c1)·G₂ + hash(c2)·G₃`. -/
def LeafNode.newWithChildren (stem : Stem) (children : Fin 256 → Option Value) :
    LeafNode Point Value :=
  let c1 := suffixCommitment env (firstHalf children)
  let c2 := suffixCommitment env (secondHalf children)
  { marker := 1
    stem := stem
    commitment := (1 : Fr) • env.G 0 + env.stemScalar stem • env.G 1 +
      env.hash c1 • env.G 2 + env.hash c2 • env.G 3
    c1 := c1
    c2 := c2
    children := children }

/-- `LeafNode::new`: all children absent. -/
def LeafNode.new (stem : Stem) : LeafNode Point Value :=
  LeafNode.newWithChildren env stem (fun _ => none)

/-- `LeafNode::set` exactly as in `src/nodes/leaf.rs`: the affected half
commitment is updated by the two-base delta, and then the outer commitment is
*increased by the full new hash* of that half
(`self.commitment += scalar_mul(EXTENSION_C1_INDEX, self.c1.map_to_scalar_field())`),
with no subtraction of the previous hash. -/
def LeafNode.set (l : LeafNode Point Value) (index : Fin 256) (v : Value) :
    LeafNode Point Value :=
  let newLow := (env.split v).1
  let newHigh := (env.split v).2
  let oldLow := match l.children index with | none => 0 | some o => (env.split o).1
  let oldHigh := match l.children index with | none => 0 | some o => (env.split o).2
  let children' := Function.update l.children index (some v)
  let si : Fin 128 := ⟨index.val % 128, Nat.mod_lt _ (by omega)⟩
  let diff : Point := (newLow - oldLow) • env.G (lowIndex si) +
    (newHigh - oldHigh) • env.G (highIndex si)
  if index.val < 128 then
    { l with
      children := children'
      c1 := l.c1 + diff
      commitment := l.commitment + env.hash (l.c1 + diff) • env.G 2 }
  else
    { l with
      children := children'
      c2 := l.c2 + diff
      commitment := l.commitment + env.hash (l.c2 + diff) • env.G 3 }

/-- `LeafNode::get`. -/
def LeafNode.get (l : LeafNode Point Value) (index : Fin 256) : Option Value :=
  l.children index

end Pvt

namespace Bridge

/-! ## The `portal-bridge` branch node (`src/verkle_trie/nodes/branch.rs`)

The `Node` enum and leaf node of this crate (`nodes/mod.rs`, `nodes/leaf.rs`)
are not part of the sources; the leaf operations used here are those of the
`portal-verkle-trie` crate (`Pvt.LeafNode`), which is the leaf implementation
the claims pair with this branch. -/

/-- The `Node` enum: empty sentinel, branch, or leaf. -/
inductive Node (Point Value : Type) where
  | empty
  | branch (depth : ℕ) (commitment : Point) (children : Fin 256 → Node Point Value)
  | leaf (l : Pvt.LeafNode Point Value)

variable (env : CommitEnv Fr Point Value)

/-- The commitment of a node; the `Empty` sentinel carries the zero point. -/
def Node.commitment : Node Point Value → Point
  | .empty => 0
  | .branch _ c _ => c
  | .leaf l => l.commitment

/-- Modelled from the spec: `Commitment` (`nodes/commitment.rs`, not under
`src/`) caches `map_to_scalar_field` of the commitment point (§4.1); the cache
is observationally the recomputation modelled here.  The `Empty` node's
commitment-hash is the hash of the zero point, which is the zero scalar by
`hash_zero`. -/
def Node.commitmentHash (n : Node Point Value) : Fr :=
  env.hash n.commitment

/-- The leaf-split cascade of `BranchNode::insert`: builds `Self::new(d)`
(panicking via `none` when `d ≥ 31`), moves the old leaf to child
`old_stem[d]` via `set_child`, and runs `insert` on the fresh branch.  The
recursive `insert` call on the fresh branch is unfolded here (well-founded on
`31 - d`): on a fresh branch with the old leaf at `old_stem[d]`, `insert`
either sets into that leaf (equal next byte), places a new leaf in an empty
slot (distinct next byte), or recurses one level deeper, exactly the arms
below. -/
def insertChain (d : ℕ) (l : Pvt.LeafNode Point Value) (k : TrieKey) (v : Value) :
    Option (Node Point Value) :=
  if hd : d < 31 then
    let iOld := l.stem ⟨d, hd⟩
    let c0 : Point := (env.hash l.commitment - env.hash (0 : Point)) • env.G iOld
    let ch0 : Fin 256 → Node Point Value :=
      Function.update (fun _ => Node.empty) iOld (Node.leaf l)
    let idx := k.stem ⟨d, hd⟩
    if idx = iOld then
      if l.stem = k.stem then
        let l2 := l.set env k.suffix v
        some (.branch d (c0 + (env.hash l2.commitment - env.hash l.commitment) • env.G idx)
          (Function.update ch0 idx (.leaf l2)))
      else
        match insertChain (d + 1) l k v with
        | none => none
        | some sub =>
          some (.branch d (c0 + (env.hash sub.commitment - env.hash l.commitment) • env.G idx)
            (Function.update ch0 idx sub))
    else
      let l2 := (Pvt.LeafNode.new env k.stem).set env k.suffix v
      some (.branch d (c0 + (env.hash l2.commitment - env.hash (0 : Point)) • env.G idx)
        (Function.update ch0 idx (.leaf l2)))
  else none
termination_by 31 - d

/-- `BranchNode::insert`: snapshot the child's commitment hash, mutate the
child (new leaf / recurse / set / split), then add
`G_idx · (child_hash_now - old_hash)` to this branch's commitment.  Rust
panics (depth past the stem length) are `none`; `insert` is a `BranchNode`
method, so non-branch receivers are also `none` (unreachable in the crate). -/
def Node.insert : Node Point Value → TrieKey → Value → Option (Node Point Value)
  | .empty, _, _ => none
  | .leaf _, _, _ => none
  | .branch d c ch, k, v =>
    match keyGet k d with
    | none => none
    | some idx =>
      match ch idx with
      | .empty =>
        let l := (Pvt.LeafNode.new env k.stem).set env k.suffix v
        some (.branch d (c + (env.hash l.commitment - env.hash (0 : Point)) • env.G idx)
          (Function.update ch idx (.leaf l)))
      | .branch _ _ _ =>
        match Node.insert (ch idx) k v with
        | none => none
        | some child' =>
          some (.branch d
            (c + (env.hash child'.commitment - env.hash ((ch idx).commitment)) • env.G idx)
            (Function.update ch idx child'))
      | .leaf l =>
        if l.stem = k.stem then
          let l2 := l.set env k.suffix v
          some (.branch d (c + (env.hash l2.commitment - env.hash l.commitment) • env.G idx)
            (Function.update ch idx (.leaf l2)))
        else
          match insertChain env (d + 1) l k v with
          | none => none
          | some sub =>
            some (.branch d (c + (env.hash sub.commitment - env.hash l.commitment) • env.G idx)
              (Function.update ch idx sub))

end Bridge

/-- `stem[..n]` as a byte list (`TriePath::from(stem[..n].to_vec())`). -/
def stemTakeList (s : Stem) (n : ℕ) : List Byte :=
  (List.ofFn s).take n

/-- The bytes `stem[e], …, stem[e+m-1]`: the relative child-index path an
`update` descent starting at depth `e` follows (out-of-range indices, which
never occur in the proofs, read as byte 0). -/
def stemSlice (s : Stem) (e : ℕ) : ℕ → List Byte
  | 0 => []
  | m + 1 => (if h : e < 31 then s ⟨e, h⟩ else 0) :: stemSlice s (e + 1) m

namespace Pv

/-! ## The `portal-verkle` trie (`src/verkle_trie/nodes/branch.rs`,
`src/verkle_trie/error.rs`, `src/types/witness.rs`)

The branch node is embedded from `src/verkle_trie/nodes/branch.rs`.  The
crate's leaf node (`nodes/leaf.rs`) and `Commitment` wrapper
(`nodes/commitment.rs`) are not under `src/` and are modelled from the spec
(§4.1, §4.2); each such definition is marked `Modelled from the spec:`. -/

/-- Modelled from the spec: the `portal-verkle` `LeafNode`
(`nodes/leaf.rs` is not under `src/`); §3 node variants: one stem, the two
half-commitments `c1`/`c2`, the outer commitment, 256 optional values. -/
structure LeafNode (Point Value : Type) where
  stem : Stem
  commitment : Point
  c1 : Point
  c2 : Point
  children : Fin 256 → Option Value

/-- `StemStateWrite` (from `portal_verkle_primitives`, as constructed in
`src/types/witness.rs`): a stem plus the `HashMap<u8, TrieValue>` of new
values, modelled as the map's iteration sequence. -/
structure StemStateWrite (Value : Type) where
  stem : Stem
  writes : List (Byte × Value)

/-- `VerkleTrieError` (`src/verkle_trie/error.rs`). -/
inductive VerkleTrieError (Value : Type) where
  | unexpectedStem (expected actual : Stem)
  | wrongOldValue (stem : Stem) (index : Byte) (expected actual : Option Value)
  | nodeNotFound

variable (env : CommitEnv Fr Point Value)

/-- Modelled from the spec: §4.2 constructor — `new(stem)` sets `c1 = c2 = 0`,
all children absent, and computes the initial
`commitment = G₀·1 + G₁·stem_as_scalar` (both half hashes are zero). -/
def LeafNode.new (stem : Stem) : LeafNode Point Value :=
  { stem := stem
    commitment := (1 : Fr) • env.G 0 + env.stemScalar stem • env.G 1
    c1 := 0
    c2 := 0
    children := fun _ => none }

/-- Modelled from the spec: §4.2 `set(suffix, value)` — the affected half is
updated by the two-base delta `G[2s]·(new_low−old_low) + G[2s+1]·(new_high−old_high)`
with `s = suffix mod 128`, and then the outer commitment is adjusted by the
single base `G₂` (resp. `G₃`) with delta `new_hash − old_hash`, the half
being updated before its hash is re-sampled. -/
def LeafNode.set (l : LeafNode Point Value) (index : Fin 256) (v : Value) :
    LeafNode Point Value :=
  let newLow := (env.split v).1
  let newHigh := (env.split v).2
  let oldLow := match l.children index with | none => 0 | some o => (env.split o).1
  let oldHigh := match l.children index with | none => 0 | some o => (env.split o).2
  let children' := Function.update l.children index (some v)
  let si : Fin 128 := ⟨index.val % 128, Nat.mod_lt _ (by omega)⟩
  let diff : Point := (newLow - oldLow) • env.G (lowIndex si) +
    (newHigh - oldHigh) • env.G (highIndex si)
  if index.val < 128 then
    { l with
      children := children'
      c1 := l.c1 + diff
      commitment := l.commitment + (env.hash (l.c1 + diff) - env.hash l.c1) • env.G 2 }
  else
    { l with
      children := children'
      c2 := l.c2 + diff
      commitment := l.commitment + (env.hash (l.c2 + diff) - env.hash l.c2) • env.G 3 }

/-- Modelled from the spec: §4.2 `update(stem_write)` — fails with
`UnexpectedStem` when the write's stem differs from the leaf's, otherwise
`set`s every write in iteration order.  (The `portal-verkle`
`StemStateWrite` carries no `expected_old` values — see
`src/types/witness.rs` — so §4.2's optional `WrongOldValue` check has
nothing to compare.) -/
def LeafNode.update (l : LeafNode Point Value) (w : StemStateWrite Value) :
    Except (VerkleTrieError Value) (LeafNode Point Value) :=
  if w.stem = l.stem then
    .ok (w.writes.foldl (fun acc p => acc.set env p.1 p.2) l)
  else
    .error (.unexpectedStem l.stem w.stem)

/-- The `Node` enum of the `portal-verkle` trie. -/
inductive Node (Point Value : Type) where
  | empty
  | branch (depth : ℕ) (commitment : Point) (children : Fin 256 → Node Point Value)
  | leaf (l : LeafNode Point Value)

/-- The commitment of a node; the `Empty` sentinel carries the zero point. -/
def Node.commitment : Node Point Value → Point
  | .empty => 0
  | .branch _ c _ => c
  | .leaf l => l.commitment

/-- Modelled from the spec: the `Commitment` wrapper
(`nodes/commitment.rs` is not under `src/`) caches `map_to_scalar_field` of
the commitment point (§4.1); the memoisation is observationally the direct
recomputation modelled here, and the `Empty` node's commitment-hash is the
hash of the zero point (zero, by `hash_zero`). -/
def Node.commitmentHash (n : Node Point Value) : Fr :=
  env.hash n.commitment

/-- `BranchNode::new(depth)`: panics (`none`) when `depth ≥ Stem::len_bytes()`,
otherwise an all-empty branch with the zero commitment. -/
def newBranch (d : ℕ) : Option (Node Point Value) :=
  if d < 31 then some (.branch d 0 (fun _ => Node.empty)) else none

/-- `BranchNode::set_child(index, child)`: add
`G_index · (child_hash − old_child_hash)` to the commitment and replace the
child.  (A `BranchNode` method; non-branch receivers are unreachable.) -/
def Node.setChild : Node Point Value → Fin 256 → Node Point Value → Node Point Value
  | .branch d c ch, i, child =>
    .branch d (c + (env.hash child.commitment - env.hash ((ch i).commitment)) • env.G i)
      (Function.update ch i child)
  | n, _, _ => n

/-- The leaf-split cascade of `BranchNode::insert`: `Self::new(depth + 1)`
(panicking (`none`) when the new depth reaches 31), `set_child` moving the old
leaf to child `old_stem[d]`, then `insert` on the fresh branch.  The recursive
`insert` call on the freshly built branch is unfolded into this well-founded
recursion on `31 - d`: on the fresh branch it either sets into the moved leaf,
places a new leaf beside it, or cascades one level deeper. -/
def insertChain (d : ℕ) (l : LeafNode Point Value) (k : TrieKey) (v : Value) :
    Option (Node Point Value) :=
  if hd : d < 31 then
    let iOld := l.stem ⟨d, hd⟩
    let c0 : Point := (env.hash l.commitment - env.hash (0 : Point)) • env.G iOld
    let ch0 : Fin 256 → Node Point Value :=
      Function.update (fun _ => Node.empty) iOld (Node.leaf l)
    let idx := k.stem ⟨d, hd⟩
    if idx = iOld then
      if l.stem = k.stem then
        let l2 := l.set env k.suffix v
        some (.branch d (c0 + (env.hash l2.commitment - env.hash l.commitment) • env.G idx)
          (Function.update ch0 idx (.leaf l2)))
      else
        match insertChain (d + 1) l k v with
        | none => none
        | some sub =>
          some (.branch d (c0 + (env.hash sub.commitment - env.hash l.commitment) • env.G idx)
            (Function.update ch0 idx sub))
    else
      let l2 := (LeafNode.new env k.stem).set env k.suffix v
      some (.branch d (c0 + (env.hash l2.commitment - env.hash (0 : Point)) • env.G idx)
        (Function.update ch0 idx (.leaf l2)))
  else none
termination_by 31 - d

/-- `BranchNode::insert` (`src/verkle_trie/nodes/branch.rs:57`): snapshot the
child's commitment hash, mutate the child (new leaf / recurse / set / split),
then add `CRS::commit_single(index, child_hash_now − old_hash)` to this
branch's commitment.  Rust panics are `none`; non-branch receivers are
unreachable (`insert` is a `BranchNode` method). -/
def Node.insert : Node Point Value → TrieKey → Value → Option (Node Point Value)
  | .empty, _, _ => none
  | .leaf _, _, _ => none
  | .branch d c ch, k, v =>
    match keyGet k d with
    | none => none
    | some idx =>
      match ch idx with
      | .empty =>
        let l := (LeafNode.new env k.stem).set env k.suffix v
        some (.branch d (c + (env.hash l.commitment - env.hash (0 : Point)) • env.G idx)
          (Function.update ch idx (.leaf l)))
      | .branch _ _ _ =>
        match Node.insert (ch idx) k v with
        | none => none
        | some child' =>
          some (.branch d
            (c + (env.hash child'.commitment - env.hash ((ch idx).commitment)) • env.G idx)
            (Function.update ch idx child'))
      | .leaf l =>
        if l.stem = k.stem then
          let l2 := l.set env k.suffix v
          some (.branch d (c + (env.hash l2.commitment - env.hash l.commitment) • env.G idx)
            (Function.update ch idx (.leaf l2)))
        else
          match insertChain env (d + 1) l k v with
          | none => none
          | some sub =>
            some (.branch d (c + (env.hash sub.commitment - env.hash l.commitment) • env.G idx)
              (Function.update ch idx sub))

/-- The outcome of `BranchNode::update`: a Rust panic, an `Err`, or `Ok` with
the updated branch and the optional `TriePath` to a newly created branch. -/
inductive UpdateResult (Point Value : Type) where
  | panic
  | fail (e : VerkleTrieError Value)
  | ok (n : Node Point Value) (created : Option (List Byte))

/-- The leaf-split cascade of `BranchNode::update`, unfolded exactly like
`insertChain`.  Inside
the cascade a further split sets `path_to_created_branch` to
`stem[..d+1]`, but every caller of the cascade discards that inner path. -/
def updateChain (d : ℕ) (l : LeafNode Point Value) (w : StemStateWrite Value) :
    UpdateResult Point Value :=
  if hd : d < 31 then
    let iOld := l.stem ⟨d, hd⟩
    let c0 : Point := (env.hash l.commitment - env.hash (0 : Point)) • env.G iOld
    let ch0 : Fin 256 → Node Point Value :=
      Function.update (fun _ => Node.empty) iOld (Node.leaf l)
    let idx := w.stem ⟨d, hd⟩
    if idx = iOld then
      if l.stem = w.stem then
        match l.update env w with
        | .error e => .fail e
        | .ok l2 =>
          .ok (.branch d (c0 + (env.hash l2.commitment - env.hash l.commitment) • env.G idx)
            (Function.update ch0 idx (.leaf l2))) none
      else
        match updateChain (d + 1) l w with
        | .panic => .panic
        | .fail e => .fail e
        | .ok sub _ =>
          .ok (.branch d (c0 + (env.hash sub.commitment - env.hash l.commitment) • env.G idx)
            (Function.update ch0 idx sub)) (some (stemTakeList w.stem (d + 1)))
    else
      match (LeafNode.new env w.stem).update env w with
      | .error e => .fail e
      | .ok l2 =>
        .ok (.branch d (c0 + (env.hash l2.commitment - env.hash (0 : Point)) • env.G idx)
          (Function.update ch0 idx (.leaf l2))) none
  else .panic
termination_by 31 - d

/-- The action `BranchNode::insert` performs on the child it dispatches to
(`dd` is the depth a split cascade would start at, i.e. the parent's depth
plus one).  This is not a function of the Rust source but the common shape of
the four `match` arms of `insert`; `insert_eq_childStep` proves `insert` is
exactly this child action followed by the commitment delta. -/
def childStep (dd : ℕ) (k : TrieKey) (v : Value) :
    Node Point Value → Option (Node Point Value)
  | .empty => some (.leaf ((LeafNode.new env k.stem).set env k.suffix v))
  | .branch d' c' ch' => Node.insert env (.branch d' c' ch') k v
  | .leaf l =>
    if l.stem = k.stem then some (.leaf (l.set env k.suffix v))
    else insertChain env dd l k v

/-- `BranchNode::update` (`src/verkle_trie/nodes/branch.rs:102`): like
`insert` but per-stem; returns the path `stem[..new_branch.depth]` when the
leaf-split arm created a new branch, propagates the child's path when
descending into an existing branch, and `None` when only a leaf was touched.
Errors propagate via `?`; Rust panics are `.panic`. -/
def Node.update : Node Point Value → StemStateWrite Value → UpdateResult Point Value
  | .empty, _ => .panic
  | .leaf _, _ => .panic
  | .branch d c ch, w =>
    match stemGet w.stem d with
    | none => .panic
    | some idx =>
      match ch idx with
      | .empty =>
        match (LeafNode.new env w.stem).update env w with
        | .error e => .fail e
        | .ok l2 =>
          .ok (.branch d (c + (env.hash l2.commitment - env.hash (0 : Point)) • env.G idx)
            (Function.update ch idx (.leaf l2))) none
      | .branch _ _ _ =>
        match Node.update (ch idx) w with
        | .panic => .panic
        | .fail e => .fail e
        | .ok child' created =>
          .ok (.branch d
            (c + (env.hash child'.commitment - env.hash ((ch idx).commitment)) • env.G idx)
            (Function.update ch idx child')) created
      | .leaf l =>
        if l.stem = w.stem then
          match l.update env w with
          | .error e => .fail e
          | .ok l2 =>
            .ok (.branch d (c + (env.hash l2.commitment - env.hash l.commitment) • env.G idx)
              (Function.update ch idx (.leaf l2))) none
        else
          match updateChain env (d + 1) l w with
          | .panic => .panic
          | .fail e => .fail e
          | .ok sub _ =>
            .ok (.branch d (c + (env.hash sub.commitment - env.hash l.commitment) • env.G idx)
              (Function.update ch idx sub)) (some (stemTakeList w.stem (d + 1)))

/-- Invariant (2) of the spec (§3, §8.1): every branch's commitment is
`Σᵢ Gᵢ · hash(children[i].commitment)`, recursively. -/
def Node.WfComm : Node Point Value → Prop
  | .empty => True
  | .leaf _ => True
  | .branch _ c ch =>
    c = (∑ i : Fin 256, env.hash ((ch i).commitment) • env.G i) ∧ ∀ i, (ch i).WfComm

/-- Invariant (1) of the spec (§3): a branch's `depth` field equals the
number of stem bytes consumed from the root, and `0 ≤ depth ≤ 30`. -/
def Node.DepthOk : Node Point Value → ℕ → Prop
  | .branch dep _ ch, d => dep = d ∧ dep ≤ 30 ∧ ∀ i, (ch i).DepthOk (d + 1)
  | _, _ => True

/-- `n` has a branch node at the child-index path `p` (`p = []` is `n`
itself). -/
def Node.isBranchAt : Node Point Value → List Byte → Bool
  | .branch _ _ _, [] => true
  | .branch _ _ ch, i :: p => (ch i).isBranchAt p
  | _, _ => false

/-- Base index `8f + k` of fragment `f`'s `k`-th child. -/
def fragIndex (f : Fin 32) (k : Fin 8) : Fin 256 := ⟨8 * f.val + k.val, by omega⟩

/-- `BranchNode::get_fragment_commitment`
(`src/verkle_trie/nodes/branch.rs:144`): sum `G[8f+k] · hash(child)` over the
fragment's eight children whose commitment is nonzero; `None` when the total
is the zero point. -/
def Node.fragComm [DecidableEq Point] : Node Point Value → Fin 32 → Option Point
  | .branch _ _ ch, f =>
    let s : Point := ∑ k : Fin 8,
      (if (ch (fragIndex f k)).commitment = 0 then 0
       else env.hash ((ch (fragIndex f k)).commitment) • env.G (fragIndex f k))
    if s = 0 then none else some s
  | _, _ => none

/-- `BranchBundleNode` (`portal-verkle-trie/src/nodes/portal/ssz/nodes.rs`):
the 32 fragment commitments as a sparse vector.  (The attached `BundleProof`
is the external prover's opaque placeholder — `utils.rs` `bundle_proof` — and
carries no commitment data, so it is not modelled.) -/
structure BranchBundleNode (Point : Type) where
  fragments : Fin 32 → Option Point

/-- `BranchNode::extract_bundle_node` (`src/verkle_trie/nodes/branch.rs:162`). -/
def Node.extractBundleNode [DecidableEq Point] (n : Node Point Value) :
    BranchBundleNode Point :=
  ⟨fun f => n.fragComm env f⟩

/-- The commitment a bundle node is keyed by: the sum of its (present)
fragment commitments. -/
def bundleCommitment (b : BranchBundleNode Point) : Point :=
  ∑ f : Fin 32, (b.fragments f).getD 0

end Pv

namespace Witness

/-! ## Wire-side witness types (`portal-verkle/src/types/witness.rs`) -/

/-- `SuffixStateDiff`. -/
structure SuffixStateDiff (Value : Type) where
  suffix : Byte
  current_value : Option Value
  new_value : Option Value

/-- `StemStateDiff`. -/
structure StemStateDiff (Value : Type) where
  stem : Stem
  suffix_diffs : List (SuffixStateDiff Value)

/-- The content of a `HashMap<u8, TrieValue>` built by `collect` from a
sequence of `(suffix, value)` pairs: later pairs overwrite earlier ones at
the same key. -/
def hashMapOfList (l : List (Byte × Value)) : Byte → Option Value :=
  l.foldl (fun acc p => Function.update acc p.1 (some p.2)) (fun _ => none)

/-- `StemStateWrite` as produced by `into_stem_state_write`, with the
`HashMap` modelled by its content map.  (`Pv.StemStateWrite` models the same
Rust type by its iteration sequence, the view the trie descent consumes.) -/
structure StemStateWrite (Value : Type) where
  stem : Stem
  writes : Byte → Option Value

/-- `StemStateDiff::into_stem_state_write`
(`src/types/witness.rs:53`): keep the `(suffix, value)` pairs of the diffs
that carry a `new_value`, collect them into a map, and return `None` when
that map is empty.  (The collected map is empty exactly when the kept pair
list is, so the emptiness test is performed on the list.) -/
def intoStemStateWrite (d : StemStateDiff Value) : Option (StemStateWrite Value) :=
  let writes := d.suffix_diffs.filterMap
    (fun sd => sd.new_value.map (fun v => (sd.suffix, v)))
  if writes.isEmpty then none
  else some { stem := d.stem, writes := hashMapOfList writes }

/-- The last `new_value` carried by a diff at suffix `s`, if any: the value
the collected `HashMap` holds at `s`. -/
def lastNewValue (d : StemStateDiff Value) (s : Byte) : Option Value :=
  (d.suffix_diffs.reverse.find? (fun sd => sd.suffix = s && sd.new_value.isSome)).bind
    (fun sd => sd.new_value)

/-- `d` with every `current_value` field rewritten by `f` (the claims state
these fields never affect `into_stem_state_write`). -/
def mapCurrents (f : SuffixStateDiff Value → Option Value) (d : StemStateDiff Value) :
    StemStateDiff Value :=
  ⟨d.stem, d.suffix_diffs.map (fun sd => ⟨sd.suffix, f sd, sd.new_value⟩)⟩

end Witness

namespace Genesis

/-! ## The genesis expander (`portal-bridge/src/types/genesis.rs`)

`U256` is modelled as `ℕ`, byte strings as `List Byte`, and both `HashMap`s
(`alloc` and each account's `storage`) by their iteration sequences — a Rust
`HashMap`'s iteration order is unspecified and varies between runs, which is
exactly what the determinism claim quantifies over. -/

/-- `AccountAlloc` (`src/types/genesis.rs`). -/
structure AccountAlloc (Value : Type) where
  balance : ℕ
  nonce : Option ℕ
  code : Option (List Byte)
  storage : Option (List (ℕ × Value))

/-- `GenesisConfig` (`src/types/genesis.rs`). -/
structure GenesisConfig (Addr Value : Type) where
  alloc : List (Addr × AccountAlloc Value)

/-- Modelled from the spec: `AccountStorageLayout`
(`verkle-core/src/storage`, not under `src/`) — the fixed per-address key
derivation of §4.6: the five header keys, `chunkify_code`, and
`storage_slot_key`. -/
structure AccountStorageLayout (Value : Type) where
  version_key : TrieKey
  balance_key : TrieKey
  nonce_key : TrieKey
  code_hash_key : TrieKey
  code_size_key : TrieKey
  chunkify_code : List Byte → List (TrieKey × Value)
  storage_slot_key : ℕ → TrieKey

variable {Addr Value : Type}

/-- The `(key, value)` writes one account contributes, in program order
(`generate_state_diff`'s per-account body): version, balance, nonce, then
the code-hash group, then the storage entries in iteration order.
`keccakVal` is `keccak256(·).into()` and `u256Val` is `U256::into()`. -/
def accountInserts (layout : Addr → AccountStorageLayout Value)
    (keccakVal : List Byte → Value) (u256Val : ℕ → Value)
    (p : Addr × AccountAlloc Value) : List (TrieKey × Value) :=
  let sl := layout p.1
  let acc := p.2
  [(sl.version_key, u256Val 0),
   (sl.balance_key, u256Val acc.balance),
   (sl.nonce_key, u256Val (acc.nonce.getD 0))] ++
  (match acc.code with
   | none => [(sl.code_hash_key, keccakVal [])]
   | some code =>
     (sl.code_hash_key, keccakVal code) ::
       (sl.code_size_key, u256Val code.length) :: sl.chunkify_code code) ++
  (match acc.storage with
   | none => []
   | some st => st.map (fun q => (sl.storage_slot_key q.1, q.2)))

/-- All writes of a genesis config, account by account in iteration order. -/
def genesisInserts (layout : Addr → AccountStorageLayout Value)
    (keccakVal : List Byte → Value) (u256Val : ℕ → Value)
    (cfg : GenesisConfig Addr Value) : List (TrieKey × Value) :=
  (cfg.alloc.map (accountInserts layout keccakVal u256Val)).flatten

/-- Byte-wise lexicographic three-way comparison (`Ord` on `[u8; 31]`). -/
def bytesCmp : List Byte → List Byte → Ordering
  | [], [] => .eq
  | [], _ :: _ => .lt
  | _ :: _, [] => .gt
  | a :: as, b :: bs => if a < b then .lt else if b < a then .gt else bytesCmp as bs

/-- The `Ord` comparison of two stems. -/
def stemCmp (s t : Stem) : Ordering :=
  bytesCmp (List.ofFn s) (List.ofFn t)

/-- One step of `insert_state_diff` on the `BTreeMap<Stem, StemStateDiff>`,
modelled as a sorted association list: push the suffix diff onto an existing
stem's entry, or insert a fresh singleton entry at its ordered position. -/
def btInsert (s : Stem) (d : Witness.SuffixStateDiff Value) :
    List (Stem × List (Witness.SuffixStateDiff Value)) →
      List (Stem × List (Witness.SuffixStateDiff Value))
  | [] => [(s, [d])]
  | (t, ds) :: m =>
    match stemCmp s t with
    | .lt => (s, [d]) :: (t, ds) :: m
    | .eq => (t, ds ++ [d]) :: m
    | .gt => (t, ds) :: btInsert s d m

/-- The `BTreeMap` after all `insert_state_diff` calls, in write order. -/
def btFold (l : List (TrieKey × Value)) :
    List (Stem × List (Witness.SuffixStateDiff Value)) :=
  l.foldl (fun m kv => btInsert kv.1.stem ⟨kv.1.suffix, none, some kv.2⟩ m) []

/-- `GenesisConfig::generate_state_diff` (`src/types/genesis.rs:24`): fold
every write into the stem-keyed `BTreeMap` and return `into_values` in key
order. -/
def generateStateDiff (layout : Addr → AccountStorageLayout Value)
    (keccakVal : List Byte → Value) (u256Val : ℕ → Value)
    (cfg : GenesisConfig Addr Value) : List (Witness.StemStateDiff Value) :=
  (btFold (genesisInserts layout keccakVal u256Val cfg)).map (fun p => ⟨p.1, p.2⟩)

/-- `p` and `q` are enumerations of the same `(address, AccountAlloc)` entry:
equal fields, the `storage` map enumerated in possibly different orders. -/
def AllocEntryEquiv (p q : Addr × AccountAlloc Value) : Prop :=
  p.1 = q.1 ∧ p.2.balance = q.2.balance ∧ p.2.nonce = q.2.nonce ∧
    p.2.code = q.2.code ∧
    match p.2.storage, q.2.storage with
    | none, none => True
    | some s, some t => s.Perm t
    | _, _ => False

/-- `c1` and `c2` are enumerations of the same `GenesisConfig`: the same
account map in possibly different iteration orders, each account's storage
map in possibly different iteration orders.  Two runs of the program on one
genesis file differ by exactly this relation. -/
def ConfigEquiv (c1 c2 : GenesisConfig Addr Value) : Prop :=
  ∃ l, c1.alloc.Perm l ∧ List.Forall₂ AllocEntryEquiv l c2.alloc

/-- The relation between corresponding entries of two `generate_state_diff`
outputs: same stem, same suffix diffs up to order. -/
def StemDiffEquiv (a b : Witness.StemStateDiff Value) : Prop :=
  a.stem = b.stem ∧ a.suffix_diffs.Perm b.suffix_diffs

/-- Strict byte order on stems (the `BTreeMap` key order). -/
def stemLt (s t : Stem) : Prop := stemCmp s t = .lt

/-- Lookup in the association-list model of the `BTreeMap`. -/
def btGet (s : Stem) :
    List (Stem × List (Witness.SuffixStateDiff Value)) →
      List (Witness.SuffixStateDiff Value)
  | [] => []
  | (t, ds) :: m => if s = t then ds else btGet s m

/-- The `(suffix, value)` pair a trie write contributes to its stem's diff
list. -/
def toDiff (kv : TrieKey × Value) : Witness.SuffixStateDiff Value :=
  ⟨kv.1.suffix, none, some kv.2⟩

end Genesis

/-! ## A concrete instantiation of the commitment primitives

Used to evaluate the embedded code on explicit inputs: the scalar field and
the group are both `ℤ`, every generator is `1`, the scalar-field hash is the
identity (so `hash 0 = 0` holds), every value splits as `(1, 0)`. -/

/-- A concrete commitment environment over `ℤ`. -/
def zEnv : CommitEnv ℤ ℤ Unit :=
  { G := fun _ => 1
    hash := id
    stemScalar := fun _ => 0
    split := fun _ => (1, 0)
    hash_zero := rfl }

/-- The all-zero stem. -/
def stem0 : Stem := fun _ => 0

/-- The all-zero key. -/
def key0 : TrieKey := ⟨stem0, 0⟩

/-- A `portal-verkle-trie` leaf built by `new` followed by two `set`s on the
first half (suffixes 0 and 1). -/
def pvtTwoSets : Pvt.LeafNode ℤ Unit :=
  ((Pvt.LeafNode.new zEnv stem0).set zEnv 0 ()).set zEnv 1 ()

/-- C1.  After `new` and two `set` operations, `LeafNode`'s outer commitment
no longer satisfies `commitment = 1·G₀ + stem·G₁ + hash(c1)·G₂ + hash(c2)·G₃`:
`LeafNode::set` adds `G₂·hash(c1_new)` (resp. `G₃·hash(c2_new)`) to the outer
commitment instead of the delta `G₂·(hash(c1_new) − hash(c1_old))`, so every
`set` after the first on a given half inflates the outer commitment by the
stale hash.  Evaluated here at the failing input: a fresh leaf with the zero
stem, `set(0, v)` then `set(1, v)`, in the concrete `ℤ` environment. -/
theorem C1_pvt_leaf_outer_identity_fails :
    pvtTwoSets.commitment ≠
      (1 : ℤ) • zEnv.G 0 + zEnv.stemScalar stem0 • zEnv.G 1 +
        zEnv.hash pvtTwoSets.c1 • zEnv.G 2 + zEnv.hash pvtTwoSets.c2 • zEnv.G 3 := by
  decide

/-- A bridge trie root: the empty branch at depth 0 (`BranchNode::new(0)`). -/
def bridgeRoot : Bridge.Node ℤ Unit := .branch 0 0 (fun _ => .empty)

/-- C3.  Inserting the same `(key, value)` twice is *not* idempotent for the
root commitment: the second `insert` reaches the existing leaf and calls
`LeafNode::set`, which adds `G₂·hash(c1)` to the leaf commitment again even
though `c1` is unchanged; the branch then propagates the changed leaf hash
into its own commitment.  Evaluated at the failing input `(key0, ())` on the
empty root in the concrete `ℤ` environment. -/
theorem C3_insert_twice_changes_root_commitment :
    ((bridgeRoot.insert zEnv key0 ()).bind fun t => t.insert zEnv key0 ()).map
        Bridge.Node.commitment ≠
      (bridgeRoot.insert zEnv key0 ()).map Bridge.Node.commitment := by
  decide

/-! ### Concrete inputs used to evaluate the remaining claims -/

/-- The all-one stem. -/
def stem1 : Stem := fun _ => 1

/-- A `portal-verkle` trie root: the empty branch at depth 0. -/
def pvRoot : Pv.Node ℤ Unit := .branch 0 0 (fun _ => .empty)

/-- A one-slot write to the all-zero stem. -/
def pvWrite : Pv.StemStateWrite Unit := ⟨stem0, [(0, ())]⟩

/-- The node and path `update` produces on `pvRoot` for `pvWrite`. -/
def pvOut : Pv.Node ℤ Unit × Option (List Byte) :=
  match Pv.Node.update zEnv pvRoot pvWrite with
  | .ok n p => (n, p)
  | _ => (.empty, none)

/-- The per-address key layout used for the genesis examples: the five header
keys live on the all-one stem, storage slot `n` at suffix `n mod 256` of the
all-zero stem, and code is never chunked (the accounts carry no code). -/
def cexLayout : Unit → Genesis.AccountStorageLayout Unit := fun _ =>
  { version_key := ⟨stem1, 0⟩
    balance_key := ⟨stem1, 1⟩
    nonce_key := ⟨stem1, 2⟩
    code_hash_key := ⟨stem1, 3⟩
    code_size_key := ⟨stem1, 4⟩
    chunkify_code := fun _ => []
    storage_slot_key := fun n => ⟨stem0, ⟨n % 256, Nat.mod_lt _ (by omega)⟩⟩ }

/-- One account, its two storage slots enumerated `0` then `1`. -/
def cexCfgA : Genesis.GenesisConfig Unit Unit :=
  ⟨[((), { balance := 0, nonce := none, code := none,
           storage := some [(0, ()), (1, ())] })]⟩

/-- The same account, its storage map enumerated `1` then `0` — another run's
view of the same genesis file. -/
def cexCfgB : Genesis.GenesisConfig Unit Unit :=
  ⟨[((), { balance := 0, nonce := none, code := none,
           storage := some [(1, ()), (0, ())] })]⟩

/-- A stem diff carrying two `new_value`s at the same suffix. -/
def c10diff : Witness.StemStateDiff Bool :=
  ⟨stem0, [⟨1, none, some false⟩, ⟨1, none, some true⟩]⟩

namespace Pv

/-! ## Basic lemmas on the `portal-verkle` trie -/

variable {Fr Point Value : Type} [CommRing Fr] [AddCommGroup Point] [Module Fr Point]
variable (env : CommitEnv Fr Point Value)

@[simp] theorem Node.commitment_empty :
    (Node.empty : Node Point Value).commitment = 0 := rfl

@[simp] theorem Node.commitment_branch (d : ℕ) (c : Point)
    (ch : Fin 256 → Node Point Value) : (Node.branch d c ch).commitment = c := rfl

@[simp] theorem Node.commitment_leaf (l : LeafNode Point Value) :
    (Node.leaf l).commitment = l.commitment := rfl

@[simp] theorem LeafNode.new_stem (s : Stem) :
    (LeafNode.new env s : LeafNode Point Value).stem = s := rfl

/-- A leaf `update` with the matching stem always succeeds. -/
theorem LeafNode.update_stem_eq (l : LeafNode Point Value) (w : StemStateWrite Value)
    (h : w.stem = l.stem) :
    l.update env w = .ok (w.writes.foldl (fun acc p => acc.set env p.1 p.2) l) := by
  simp [LeafNode.update, h]

/-- A leaf freshly built from the write's stem always updates successfully. -/
theorem LeafNode.update_new_ok (w : StemStateWrite Value) :
    (LeafNode.new env w.stem : LeafNode Point Value).update env w =
      .ok (w.writes.foldl (fun acc p => acc.set env p.1 p.2) (LeafNode.new env w.stem)) :=
  LeafNode.update_stem_eq env _ w rfl

/-! ### Case-by-case unfolding equations for `insert`, `update`, and the
split cascades, with the dispatching conditions as hypotheses. -/

theorem insert_empty_arm {d : ℕ} {c : Point} {ch : Fin 256 → Node Point Value}
    {k : TrieKey} {v : Value} {idx : Byte}
    (hkg : keyGet k d = some idx) (hch : ch idx = Node.empty) :
    Node.insert env (Node.branch d c ch) k v =
      some (Node.branch d
        (c + (env.hash ((LeafNode.new env k.stem).set env k.suffix v).commitment -
          env.hash (0 : Point)) • env.G idx)
        (Function.update ch idx (Node.leaf ((LeafNode.new env k.stem).set env k.suffix v)))) := by
  rw [Node.insert, hkg]
  simp only [hch]

theorem insert_recurse_arm {d : ℕ} {c : Point} {ch : Fin 256 → Node Point Value}
    {k : TrieKey} {v : Value} {idx : Byte} {d' : ℕ} {c' : Point}
    {ch' : Fin 256 → Node Point Value}
    (hkg : keyGet k d = some idx) (hch : ch idx = Node.branch d' c' ch') :
    Node.insert env (Node.branch d c ch) k v =
      Option.map (fun child' => Node.branch d
          (c + (env.hash child'.commitment - env.hash c') • env.G idx)
          (Function.update ch idx child'))
        (Node.insert env (Node.branch d' c' ch') k v) := by
  rw [Node.insert, hkg]
  simp only [hch]
  cases Node.insert env (Node.branch d' c' ch') k v with
  | none => rfl
  | some child' => rfl

theorem insert_leaf_set_arm {d : ℕ} {c : Point} {ch : Fin 256 → Node Point Value}
    {k : TrieKey} {v : Value} {idx : Byte} {l : LeafNode Point Value}
    (hkg : keyGet k d = some idx) (hch : ch idx = Node.leaf l) (hstem : l.stem = k.stem) :
    Node.insert env (Node.branch d c ch) k v =
      some (Node.branch d
        (c + (env.hash (l.set env k.suffix v).commitment - env.hash l.commitment) • env.G idx)
        (Function.update ch idx (Node.leaf (l.set env k.suffix v)))) := by
  rw [Node.insert, hkg]
  simp only [hch, if_pos hstem]

theorem insert_leaf_split_arm {d : ℕ} {c : Point} {ch : Fin 256 → Node Point Value}
    {k : TrieKey} {v : Value} {idx : Byte} {l : LeafNode Point Value}
    (hkg : keyGet k d = some idx) (hch : ch idx = Node.leaf l) (hstem : l.stem ≠ k.stem) :
    Node.insert env (Node.branch d c ch) k v =
      Option.map (fun sub => Node.branch d
          (c + (env.hash sub.commitment - env.hash l.commitment) • env.G idx)
          (Function.update ch idx sub))
        (insertChain env (d + 1) l k v) := by
  rw [Node.insert, hkg]
  simp only [hch, if_neg hstem]
  cases insertChain env (d + 1) l k v with
  | none => rfl
  | some sub => rfl

theorem insertChain_ge {d : ℕ} (h : ¬ d < 31) (l : LeafNode Point Value)
    (k : TrieKey) (v : Value) :
    insertChain env d l k v = none := by
  rw [insertChain]
  simp [h]

theorem insertChain_set_arm {d : ℕ} (hd : d < 31) {l : LeafNode Point Value}
    {k : TrieKey} {v : Value}
    (hio : k.stem ⟨d, hd⟩ = l.stem ⟨d, hd⟩) (hstem : l.stem = k.stem) :
    insertChain env d l k v =
      some (Node.branch d
        ((env.hash l.commitment - env.hash (0 : Point)) • env.G (l.stem ⟨d, hd⟩) +
          (env.hash (l.set env k.suffix v).commitment - env.hash l.commitment) •
            env.G (k.stem ⟨d, hd⟩))
        (Function.update
          (Function.update (fun _ => Node.empty) (l.stem ⟨d, hd⟩) (Node.leaf l))
          (k.stem ⟨d, hd⟩) (Node.leaf (l.set env k.suffix v)))) := by
  rw [insertChain]
  simp only [dif_pos hd, if_pos hio, if_pos hstem]

theorem insertChain_rec_arm {d : ℕ} (hd : d < 31) {l : LeafNode Point Value}
    {k : TrieKey} {v : Value}
    (hio : k.stem ⟨d, hd⟩ = l.stem ⟨d, hd⟩) (hstem : l.stem ≠ k.stem) :
    insertChain env d l k v =
      Option.map (fun sub => Node.branch d
          ((env.hash l.commitment - env.hash (0 : Point)) • env.G (l.stem ⟨d, hd⟩) +
            (env.hash sub.commitment - env.hash l.commitment) • env.G (k.stem ⟨d, hd⟩))
          (Function.update
            (Function.update (fun _ => Node.empty) (l.stem ⟨d, hd⟩) (Node.leaf l))
            (k.stem ⟨d, hd⟩) sub))
        (insertChain env (d + 1) l k v) := by
  rw [insertChain]
  simp only [dif_pos hd, if_pos hio, if_neg hstem]
  cases insertChain env (d + 1) l k v with
  | none => rfl
  | some sub => rfl

theorem insertChain_new_arm {d : ℕ} (hd : d < 31) {l : LeafNode Point Value}
    {k : TrieKey} {v : Value}
    (hio : k.stem ⟨d, hd⟩ ≠ l.stem ⟨d, hd⟩) :
    insertChain env d l k v =
      some (Node.branch d
        ((env.hash l.commitment - env.hash (0 : Point)) • env.G (l.stem ⟨d, hd⟩) +
          (env.hash ((LeafNode.new env k.stem).set env k.suffix v).commitment -
            env.hash (0 : Point)) • env.G (k.stem ⟨d, hd⟩))
        (Function.update
          (Function.update (fun _ => Node.empty) (l.stem ⟨d, hd⟩) (Node.leaf l))
          (k.stem ⟨d, hd⟩)
          (Node.leaf ((LeafNode.new env k.stem).set env k.suffix v)))) := by
  rw [insertChain]
  simp only [dif_pos hd, if_neg hio]

theorem update_empty_arm {d : ℕ} {c : Point} {ch : Fin 256 → Node Point Value}
    {w : StemStateWrite Value} {idx : Byte}
    (hsg : stemGet w.stem d = some idx) (hch : ch idx = Node.empty) :
    Node.update env (Node.branch d c ch) w =
      UpdateResult.ok (Node.branch d
        (c + (env.hash (w.writes.foldl (fun acc p => acc.set env p.1 p.2)
            (LeafNode.new env w.stem)).commitment - env.hash (0 : Point)) • env.G idx)
        (Function.update ch idx (Node.leaf (w.writes.foldl
          (fun acc p => acc.set env p.1 p.2) (LeafNode.new env w.stem))))) none := by
  rw [Node.update, hsg]
  simp only [hch, LeafNode.update_new_ok env]

theorem update_recurse_arm {d : ℕ} {c : Point} {ch : Fin 256 → Node Point Value}
    {w : StemStateWrite Value} {idx : Byte} {d' : ℕ} {c' : Point}
    {ch' : Fin 256 → Node Point Value}
    (hsg : stemGet w.stem d = some idx) (hch : ch idx = Node.branch d' c' ch') :
    Node.update env (Node.branch d c ch) w =
      (match Node.update env (Node.branch d' c' ch') w with
       | .panic => UpdateResult.panic
       | .fail e => UpdateResult.fail e
       | .ok child' created =>
         UpdateResult.ok (Node.branch d
           (c + (env.hash child'.commitment - env.hash c') • env.G idx)
           (Function.update ch idx child')) created) := by
  rw [Node.update, hsg]
  simp only [hch]
  cases Node.update env (Node.branch d' c' ch') w with
  | panic => rfl
  | fail e => rfl
  | ok child' created => rfl

theorem update_leaf_eq_arm {d : ℕ} {c : Point} {ch : Fin 256 → Node Point Value}
    {w : StemStateWrite Value} {idx : Byte} {l : LeafNode Point Value}
    (hsg : stemGet w.stem d = some idx) (hch : ch idx = Node.leaf l)
    (hstem : l.stem = w.stem) :
    Node.update env (Node.branch d c ch) w =
      UpdateResult.ok (Node.branch d
        (c + (env.hash (w.writes.foldl (fun acc p => acc.set env p.1 p.2) l).commitment -
          env.hash l.commitment) • env.G idx)
        (Function.update ch idx (Node.leaf (w.writes.foldl
          (fun acc p => acc.set env p.1 p.2) l)))) none := by
  rw [Node.update, hsg]
  simp only [hch, if_pos hstem, LeafNode.update_stem_eq env l w hstem.symm]

theorem update_leaf_split_arm {d : ℕ} {c : Point} {ch : Fin 256 → Node Point Value}
    {w : StemStateWrite Value} {idx : Byte} {l : LeafNode Point Value}
    (hsg : stemGet w.stem d = some idx) (hch : ch idx = Node.leaf l)
    (hstem : l.stem ≠ w.stem) :
    Node.update env (Node.branch d c ch) w =
      (match updateChain env (d + 1) l w with
       | .panic => UpdateResult.panic
       | .fail e => UpdateResult.fail e
       | .ok sub _ =>
         UpdateResult.ok (Node.branch d
           (c + (env.hash sub.commitment - env.hash l.commitment) • env.G idx)
           (Function.update ch idx sub)) (some (stemTakeList w.stem (d + 1)))) := by
  rw [Node.update, hsg]
  simp only [hch, if_neg hstem]

theorem updateChain_ge {d : ℕ} (h : ¬ d < 31) (l : LeafNode Point Value)
    (w : StemStateWrite Value) :
    updateChain env d l w = UpdateResult.panic := by
  rw [updateChain]
  simp [h]

theorem updateChain_eq_arm {d : ℕ} (hd : d < 31) {l : LeafNode Point Value}
    {w : StemStateWrite Value}
    (hio : w.stem ⟨d, hd⟩ = l.stem ⟨d, hd⟩) (hstem : l.stem = w.stem) :
    updateChain env d l w =
      UpdateResult.ok (Node.branch d
        ((env.hash l.commitment - env.hash (0 : Point)) • env.G (l.stem ⟨d, hd⟩) +
          (env.hash (w.writes.foldl (fun acc p => acc.set env p.1 p.2) l).commitment -
            env.hash l.commitment) • env.G (w.stem ⟨d, hd⟩))
        (Function.update
          (Function.update (fun _ => Node.empty) (l.stem ⟨d, hd⟩) (Node.leaf l))
          (w.stem ⟨d, hd⟩) (Node.leaf (w.writes.foldl
            (fun acc p => acc.set env p.1 p.2) l)))) none := by
  rw [updateChain]
  simp only [dif_pos hd, if_pos hio, if_pos hstem,
    LeafNode.update_stem_eq env l w hstem.symm]

theorem updateChain_rec_arm {d : ℕ} (hd : d < 31) {l : LeafNode Point Value}
    {w : StemStateWrite Value}
    (hio : w.stem ⟨d, hd⟩ = l.stem ⟨d, hd⟩) (hstem : l.stem ≠ w.stem) :
    updateChain env d l w =
      (match updateChain env (d + 1) l w with
       | .panic => UpdateResult.panic
       | .fail e => UpdateResult.fail e
       | .ok sub _ =>
         UpdateResult.ok (Node.branch d
           ((env.hash l.commitment - env.hash (0 : Point)) • env.G (l.stem ⟨d, hd⟩) +
             (env.hash sub.commitment - env.hash l.commitment) • env.G (w.stem ⟨d, hd⟩))
           (Function.update
             (Function.update (fun _ => Node.empty) (l.stem ⟨d, hd⟩) (Node.leaf l))
             (w.stem ⟨d, hd⟩) sub)) (some (stemTakeList w.stem (d + 1)))) := by
  rw [updateChain]
  simp only [dif_pos hd, if_pos hio, if_neg hstem]

theorem updateChain_new_arm {d : ℕ} (hd : d < 31) {l : LeafNode Point Value}
    {w : StemStateWrite Value}
    (hio : w.stem ⟨d, hd⟩ ≠ l.stem ⟨d, hd⟩) :
    updateChain env d l w =
      UpdateResult.ok (Node.branch d
        ((env.hash l.commitment - env.hash (0 : Point)) • env.G (l.stem ⟨d, hd⟩) +
          (env.hash (w.writes.foldl (fun acc p => acc.set env p.1 p.2)
            (LeafNode.new env w.stem)).commitment - env.hash (0 : Point)) •
            env.G (w.stem ⟨d, hd⟩))
        (Function.update
          (Function.update (fun _ => Node.empty) (l.stem ⟨d, hd⟩) (Node.leaf l))
          (w.stem ⟨d, hd⟩) (Node.leaf (w.writes.foldl
            (fun acc p => acc.set env p.1 p.2) (LeafNode.new env w.stem))))) none := by
  rw [updateChain]
  simp only [dif_pos hd, if_neg hio, LeafNode.update_new_ok env]

/-- The split cascade of `update` never produces `UnexpectedStem`: the fresh
leaf it may build carries the write's stem, and the existing leaf is updated
only behind the stem-equality check. -/
theorem updateChain_no_unexpectedStem :
    ∀ (n d : ℕ), 31 ≤ d + n → ∀ (l : LeafNode Point Value) (w : StemStateWrite Value)
      (e a : Stem), updateChain env d l w ≠ UpdateResult.fail (.unexpectedStem e a) := by
  intro n
  induction n with
  | zero =>
    intro d hd l w e a
    rw [updateChain]
    have h31 : ¬ d < 31 := by omega
    simp [h31]
  | succ n ih =>
    intro d hd l w e a
    rw [updateChain]
    by_cases hdlt : d < 31
    · simp only [dif_pos hdlt]
      by_cases hio : w.stem ⟨d, hdlt⟩ = l.stem ⟨d, hdlt⟩
      · simp only [if_pos hio]
        by_cases hstem : l.stem = w.stem
        · simp only [if_pos hstem]
          rw [LeafNode.update_stem_eq env l w hstem.symm]
          simp
        · simp only [if_neg hstem]
          cases hrec : updateChain env (d + 1) l w with
          | panic => simp
          | fail e' =>
            intro hcontra
            simp only [UpdateResult.fail.injEq] at hcontra
            exact ih (d + 1) (by omega) l w e a (hcontra ▸ hrec)
          | ok sub p => simp
      · simp only [if_neg hio]
        rw [LeafNode.update_new_ok env w]
        simp
    · simp [hdlt]

/-! ### Commitment consistency (claim C2) -/

@[simp] theorem WfComm_empty : (Node.empty : Node Point Value).WfComm env := by
  rw [Node.WfComm]
  trivial

@[simp] theorem WfComm_leaf (l : LeafNode Point Value) : (Node.leaf l).WfComm env := by
  rw [Node.WfComm]
  trivial

theorem WfComm_branch {d : ℕ} {c : Point} {ch : Fin 256 → Node Point Value} :
    (Node.branch d c ch).WfComm env ↔
      (c = ∑ i : Fin 256, env.hash ((ch i).commitment) • env.G i) ∧
        ∀ i, (ch i).WfComm env :=
  Iff.rfl

/-- A branch whose children are all `Empty` satisfies the invariant with the
zero commitment, because the zero point hashes to zero. -/
theorem sum_hash_empty_children :
    (∑ i : Fin 256, env.hash ((Node.empty : Node Point Value).commitment) • env.G i) = 0 := by
  simp [env.hash_zero]

/-- Updating one child changes the invariant sum by exactly
`(hash(new child) − hash(old child)) · G_idx` — the delta every mutation path
of the branch code adds to its commitment. -/
theorem sum_hash_update (ch : Fin 256 → Node Point Value) (idx : Byte)
    (m : Node Point Value) :
    (∑ i : Fin 256, env.hash ((Function.update ch idx m i).commitment) • env.G i) =
      (∑ i : Fin 256, env.hash ((ch i).commitment) • env.G i) +
        (env.hash m.commitment - env.hash ((ch idx).commitment)) • env.G idx := by
  rw [Finset.sum_eq_add_sum_diff_singleton (Finset.mem_univ idx)
    (fun i => env.hash ((Function.update ch idx m i).commitment) • env.G i),
    Finset.sum_eq_add_sum_diff_singleton (Finset.mem_univ idx)
    (fun i => env.hash ((ch i).commitment) • env.G i)]
  rw [Finset.sum_congr rfl (fun i hi => by
    rw [Function.update_noteq (by simpa using (Finset.mem_sdiff.mp hi).2)])]
  rw [Function.update_same, sub_smul]
  abel

/-- Updating one child of a family of invariant-satisfying children with an
invariant-satisfying node keeps every child invariant-satisfying. -/
theorem WfComm_update_children (base : Fin 256 → Node Point Value)
    (hbase : ∀ i, (base i).WfComm env) (idx : Byte) (m : Node Point Value)
    (hm : m.WfComm env) : ∀ i, ((Function.update base idx m) i).WfComm env := by
  intro i
  by_cases h : i = idx
  · subst h
    rw [Function.update_same]
    exact hm
  · rw [Function.update_noteq h]
    exact hbase i

/-- The fresh branch built by the insert split cascade satisfies the
commitment invariant. -/
theorem insertChain_WfComm :
    ∀ (fuel d : ℕ), 31 ≤ d + fuel → ∀ (l : LeafNode Point Value) (k : TrieKey)
      (v : Value) (sub : Node Point Value),
      insertChain env d l k v = some sub → sub.WfComm env := by
  intro fuel
  induction fuel with
  | zero =>
    intro d hfuel l k v sub hins
    rw [insertChain_ge env (by omega)] at hins
    exact absurd hins (by simp)
  | succ fuel ih =>
    intro d hfuel l k v sub hins
    by_cases hd : d < 31
    · by_cases hio : k.stem ⟨d, hd⟩ = l.stem ⟨d, hd⟩
      · by_cases hstem : l.stem = k.stem
        · rw [insertChain_set_arm env hd hio hstem] at hins
          cases hins
          rw [WfComm_branch]
          constructor
          · rw [sum_hash_update, sum_hash_update, sum_hash_empty_children, zero_add,
              hio, Function.update_same]
            simp
          · exact WfComm_update_children env _
              (WfComm_update_children env _ (fun _ => WfComm_empty env) _ _
                (WfComm_leaf env _)) _ _ (WfComm_leaf env _)
        · rw [insertChain_rec_arm env hd hio hstem] at hins
          cases hrec : insertChain env (d + 1) l k v with
          | none => rw [hrec] at hins; exact absurd hins (by simp)
          | some sub' =>
            rw [hrec] at hins
            simp only [Option.map_some'] at hins
            cases hins
            have hsub' := ih (d + 1) (by omega) l k v sub' hrec
            rw [WfComm_branch]
            constructor
            · rw [sum_hash_update, sum_hash_update, sum_hash_empty_children, zero_add,
                hio, Function.update_same]
              simp
            · exact WfComm_update_children env _
                (WfComm_update_children env _ (fun _ => WfComm_empty env) _ _
                  (WfComm_leaf env _)) _ _ hsub'
      · rw [insertChain_new_arm env hd hio] at hins
        cases hins
        rw [WfComm_branch]
        constructor
        · rw [sum_hash_update, sum_hash_update, sum_hash_empty_children, zero_add,
            Function.update_noteq hio]
          simp
        · exact WfComm_update_children env _
            (WfComm_update_children env _ (fun _ => WfComm_empty env) _ _
              (WfComm_leaf env _)) _ _ (WfComm_leaf env _)
    · rw [insertChain_ge env hd] at hins
      exact absurd hins (by simp)

/-- `BranchNode::insert` preserves the commitment invariant. -/
theorem insert_WfComm (n : Node Point Value) :
    ∀ (k : TrieKey) (v : Value) (n' : Node Point Value),
      n.WfComm env → Node.insert env n k v = some n' → n'.WfComm env := by
  induction n with
  | empty => intro k v n' _ h; exact absurd h (by simp [Node.insert])
  | leaf l => intro k v n' _ h; exact absurd h (by simp [Node.insert])
  | branch d c ch ih =>
    intro k v n' hwf hins
    rw [WfComm_branch] at hwf
    obtain ⟨hc, hchwf⟩ := hwf
    cases hkg : keyGet k d with
    | none => rw [Node.insert, hkg] at hins; exact absurd hins (by simp)
    | some idx =>
      cases hch2 : ch idx with
      | empty =>
        rw [insert_empty_arm env hkg hch2] at hins
        cases hins
        rw [WfComm_branch]
        refine ⟨?_, ?_⟩
        · rw [sum_hash_update, ← hc, hch2]
          simp
        · exact WfComm_update_children env ch hchwf idx _ (WfComm_leaf env _)
      | branch d' c' ch' =>
        rw [insert_recurse_arm env hkg hch2] at hins
        cases hrec : Node.insert env (Node.branch d' c' ch') k v with
        | none => rw [hrec] at hins; exact absurd hins (by simp)
        | some child' =>
          rw [hrec] at hins
          simp only [Option.map_some'] at hins
          cases hins
          have hihx := ih idx
          rw [hch2] at hihx
          have hchild' := hihx k v child' (by
            have := hchwf idx
            rwa [hch2] at this) hrec
          rw [WfComm_branch]
          refine ⟨?_, ?_⟩
          · rw [sum_hash_update, ← hc, hch2]
            simp
          · exact WfComm_update_children env ch hchwf idx _ hchild'
      | leaf l =>
        by_cases hstem : l.stem = k.stem
        · rw [insert_leaf_set_arm env hkg hch2 hstem] at hins
          cases hins
          rw [WfComm_branch]
          refine ⟨?_, ?_⟩
          · rw [sum_hash_update, ← hc, hch2]
            simp
          · exact WfComm_update_children env ch hchwf idx _ (WfComm_leaf env _)
        · rw [insert_leaf_split_arm env hkg hch2 hstem] at hins
          cases hrec : insertChain env (d + 1) l k v with
          | none => rw [hrec] at hins; exact absurd hins (by simp)
          | some sub =>
            rw [hrec] at hins
            simp only [Option.map_some'] at hins
            cases hins
            have hsub := insertChain_WfComm env 31 (d + 1) (by omega) l k v sub hrec
            rw [WfComm_branch]
            refine ⟨?_, ?_⟩
            · rw [sum_hash_update, ← hc, hch2]
              simp
            · exact WfComm_update_children env ch hchwf idx _ hsub

/-- The fresh branch built by the update split cascade satisfies the
commitment invariant. -/
theorem updateChain_WfComm :
    ∀ (fuel d : ℕ), 31 ≤ d + fuel → ∀ (l : LeafNode Point Value)
      (w : StemStateWrite Value) (sub : Node Point Value) (p : Option (List Byte)),
      updateChain env d l w = UpdateResult.ok sub p → sub.WfComm env := by
  intro fuel
  induction fuel with
  | zero =>
    intro d hfuel l w sub p hup
    rw [updateChain_ge env (by omega)] at hup
    exact absurd hup (by simp)
  | succ fuel ih =>
    intro d hfuel l w sub p hup
    by_cases hd : d < 31
    · by_cases hio : w.stem ⟨d, hd⟩ = l.stem ⟨d, hd⟩
      · by_cases hstem : l.stem = w.stem
        · rw [updateChain_eq_arm env hd hio hstem] at hup
          cases hup
          rw [WfComm_branch]
          constructor
          · rw [sum_hash_update, sum_hash_update, sum_hash_empty_children, zero_add,
              hio, Function.update_same]
            simp
          · exact WfComm_update_children env _
              (WfComm_update_children env _ (fun _ => WfComm_empty env) _ _
                (WfComm_leaf env _)) _ _ (WfComm_leaf env _)
        · rw [updateChain_rec_arm env hd hio hstem] at hup
          cases hrec : updateChain env (d + 1) l w with
          | panic => rw [hrec] at hup; exact absurd hup (by simp)
          | fail e => rw [hrec] at hup; exact absurd hup (by simp)
          | ok sub' p' =>
            rw [hrec] at hup
            simp only [UpdateResult.ok.injEq] at hup
            obtain ⟨hsub, -⟩ := hup
            subst hsub
            have hsub' := ih (d + 1) (by omega) l w sub' p' hrec
            rw [WfComm_branch]
            constructor
            · rw [sum_hash_update, sum_hash_update, sum_hash_empty_children, zero_add,
                hio, Function.update_same]
              simp
            · exact WfComm_update_children env _
                (WfComm_update_children env _ (fun _ => WfComm_empty env) _ _
                  (WfComm_leaf env _)) _ _ hsub'
      · rw [updateChain_new_arm env hd hio] at hup
        cases hup
        rw [WfComm_branch]
        constructor
        · rw [sum_hash_update, sum_hash_update, sum_hash_empty_children, zero_add,
            Function.update_noteq hio]
          simp
        · exact WfComm_update_children env _
            (WfComm_update_children env _ (fun _ => WfComm_empty env) _ _
              (WfComm_leaf env _)) _ _ (WfComm_leaf env _)
    · rw [updateChain_ge env hd] at hup
      exact absurd hup (by simp)

/-- `BranchNode::update` preserves the commitment invariant. -/
theorem update_WfComm (n : Node Point Value) :
    ∀ (w : StemStateWrite Value) (n' : Node Point Value) (p : Option (List Byte)),
      n.WfComm env → Node.update env n w = UpdateResult.ok n' p → n'.WfComm env := by
  induction n with
  | empty => intro w n' p _ h; exact absurd h (by simp [Node.update])
  | leaf l => intro w n' p _ h; exact absurd h (by simp [Node.update])
  | branch d c ch ih =>
    intro w n' p hwf hup
    rw [WfComm_branch] at hwf
    obtain ⟨hc, hchwf⟩ := hwf
    cases hsg : stemGet w.stem d with
    | none => rw [Node.update, hsg] at hup; exact absurd hup (by simp)
    | some idx =>
      cases hch2 : ch idx with
      | empty =>
        rw [update_empty_arm env hsg hch2] at hup
        simp only [UpdateResult.ok.injEq] at hup
        obtain ⟨hn', -⟩ := hup
        subst hn'
        rw [WfComm_branch]
        refine ⟨?_, ?_⟩
        · rw [sum_hash_update, ← hc, hch2]
          simp
        · exact WfComm_update_children env ch hchwf idx _ (WfComm_leaf env _)
      | branch d' c' ch' =>
        rw [update_recurse_arm env hsg hch2] at hup
        cases hrec : Node.update env (Node.branch d' c' ch') w with
        | panic => rw [hrec] at hup; exact absurd hup (by simp)
        | fail e => rw [hrec] at hup; exact absurd hup (by simp)
        | ok child' created =>
          rw [hrec] at hup
          simp only [UpdateResult.ok.injEq] at hup
          obtain ⟨hn', -⟩ := hup
          subst hn'
          have hihx := ih idx
          rw [hch2] at hihx
          have hchild' := hihx w child' created (by
            have := hchwf idx
            rwa [hch2] at this) hrec
          rw [WfComm_branch]
          refine ⟨?_, ?_⟩
          · rw [sum_hash_update, ← hc, hch2]
            simp
          · exact WfComm_update_children env ch hchwf idx _ hchild'
      | leaf l =>
        by_cases hstem : l.stem = w.stem
        · rw [update_leaf_eq_arm env hsg hch2 hstem] at hup
          simp only [UpdateResult.ok.injEq] at hup
          obtain ⟨hn', -⟩ := hup
          subst hn'
          rw [WfComm_branch]
          refine ⟨?_, ?_⟩
          · rw [sum_hash_update, ← hc, hch2]
            simp
          · exact WfComm_update_children env ch hchwf idx _ (WfComm_leaf env _)
        · rw [update_leaf_split_arm env hsg hch2 hstem] at hup
          cases hrec : updateChain env (d + 1) l w with
          | panic => rw [hrec] at hup; exact absurd hup (by simp)
          | fail e => rw [hrec] at hup; exact absurd hup (by simp)
          | ok sub p' =>
            rw [hrec] at hup
            simp only [UpdateResult.ok.injEq] at hup
            obtain ⟨hn', -⟩ := hup
            subst hn'
            have hsub := updateChain_WfComm env 31 (d + 1) (by omega) l w sub p' hrec
            rw [WfComm_branch]
            refine ⟨?_, ?_⟩
            · rw [sum_hash_update, ← hc, hch2]
              simp
            · exact WfComm_update_children env ch hchwf idx _ hsub

/-- `BranchNode::set_child` preserves the commitment invariant. -/
theorem setChild_WfComm (n : Node Point Value) (i : Byte) (child : Node Point Value)
    (hwf : n.WfComm env) (hchild : child.WfComm env) :
    (n.setChild env i child).WfComm env := by
  cases n with
  | empty => exact hwf
  | leaf l => exact hwf
  | branch d c ch =>
    rw [WfComm_branch] at hwf
    obtain ⟨hc, hchwf⟩ := hwf
    rw [Node.setChild, WfComm_branch]
    refine ⟨?_, ?_⟩
    · rw [sum_hash_update, ← hc]
    · exact WfComm_update_children env ch hchwf i child hchild

/-- C2.  Commitment consistency of branch nodes: starting from any tree in
which every branch satisfies `commitment = Σᵢ Gᵢ · hash(children[i].commitment)`
(with the zero point hashing to zero), the invariant is preserved by
`BranchNode::insert`, by `BranchNode::update`, and by `BranchNode::set_child`
with an invariant-satisfying child — each of which adjusts the branch
commitment by exactly `G_i · (hash(child after) − hash(child before))`. -/
theorem C2_branch_commitment_consistency (n : Node Point Value) (hwf : n.WfComm env) :
    (∀ (k : TrieKey) (v : Value) (n' : Node Point Value),
        Node.insert env n k v = some n' → n'.WfComm env) ∧
    (∀ (w : StemStateWrite Value) (n' : Node Point Value) (p : Option (List Byte)),
        Node.update env n w = UpdateResult.ok n' p → n'.WfComm env) ∧
    (∀ (i : Byte) (child : Node Point Value), child.WfComm env →
        (n.setChild env i child).WfComm env) :=
  ⟨fun k v n' h => insert_WfComm env n k v n' hwf h,
   fun w n' p h => update_WfComm env n w n' p hwf h,
   fun i child hc => setChild_WfComm env n i child hwf hc⟩

/-! ### Depth invariant (claim C7) -/

@[simp] theorem DepthOk_empty (e : ℕ) : (Node.empty : Node Point Value).DepthOk e :=
  trivial

@[simp] theorem DepthOk_leaf (l : LeafNode Point Value) (e : ℕ) :
    (Node.leaf l).DepthOk e :=
  trivial

theorem DepthOk_branch {dep e : ℕ} {c : Point} {ch : Fin 256 → Node Point Value} :
    (Node.branch dep c ch).DepthOk e ↔
      dep = e ∧ dep ≤ 30 ∧ ∀ i, (ch i).DepthOk (e + 1) :=
  Iff.rfl

theorem DepthOk_update_children {e : ℕ} (base : Fin 256 → Node Point Value)
    (hbase : ∀ i, (base i).DepthOk e) (idx : Byte) (m : Node Point Value)
    (hm : m.DepthOk e) : ∀ i, ((Function.update base idx m) i).DepthOk e := by
  intro i
  by_cases h : i = idx
  · subst h
    rw [Function.update_same]
    exact hm
  · rw [Function.update_noteq h]
    exact hbase i

/-- `BranchNode::new(depth)` aborts exactly when `depth ≥ 31`. -/
theorem newBranch_none_iff (d : ℕ) :
    (newBranch d : Option (Node Point Value)) = none ↔ 31 ≤ d := by
  rw [newBranch]
  by_cases h : d < 31 <;> simp [h] <;> omega

/-- The insert split cascade builds branches whose depths are the positional
depths, all at most 30. -/
theorem insertChain_DepthOk :
    ∀ (fuel d : ℕ), 31 ≤ d + fuel → ∀ (l : LeafNode Point Value) (k : TrieKey)
      (v : Value) (sub : Node Point Value),
      insertChain env d l k v = some sub → sub.DepthOk d := by
  intro fuel
  induction fuel with
  | zero =>
    intro d hfuel l k v sub hins
    rw [insertChain_ge env (by omega)] at hins
    exact absurd hins (by simp)
  | succ fuel ih =>
    intro d hfuel l k v sub hins
    by_cases hd : d < 31
    · by_cases hio : k.stem ⟨d, hd⟩ = l.stem ⟨d, hd⟩
      · by_cases hstem : l.stem = k.stem
        · rw [insertChain_set_arm env hd hio hstem] at hins
          cases hins
          rw [DepthOk_branch]
          exact ⟨rfl, by omega, DepthOk_update_children _
            (DepthOk_update_children _ (fun _ => DepthOk_empty _) _ _ (DepthOk_leaf _ _))
            _ _ (DepthOk_leaf _ _)⟩
        · rw [insertChain_rec_arm env hd hio hstem] at hins
          cases hrec : insertChain env (d + 1) l k v with
          | none => rw [hrec] at hins; exact absurd hins (by simp)
          | some sub' =>
            rw [hrec] at hins
            simp only [Option.map_some'] at hins
            cases hins
            have hsub' := ih (d + 1) (by omega) l k v sub' hrec
            rw [DepthOk_branch]
            exact ⟨rfl, by omega, DepthOk_update_children _
              (DepthOk_update_children _ (fun _ => DepthOk_empty _) _ _ (DepthOk_leaf _ _))
              _ _ hsub'⟩
      · rw [insertChain_new_arm env hd hio] at hins
        cases hins
        rw [DepthOk_branch]
        exact ⟨rfl, by omega, DepthOk_update_children _
          (DepthOk_update_children _ (fun _ => DepthOk_empty _) _ _ (DepthOk_leaf _ _))
          _ _ (DepthOk_leaf _ _)⟩
    · rw [insertChain_ge env hd] at hins
      exact absurd hins (by simp)

/-- The update split cascade builds branches whose depths are the positional
depths, all at most 30. -/
theorem updateChain_DepthOk :
    ∀ (fuel d : ℕ), 31 ≤ d + fuel → ∀ (l : LeafNode Point Value)
      (w : StemStateWrite Value) (sub : Node Point Value) (p : Option (List Byte)),
      updateChain env d l w = UpdateResult.ok sub p → sub.DepthOk d := by
  intro fuel
  induction fuel with
  | zero =>
    intro d hfuel l w sub p hup
    rw [updateChain_ge env (by omega)] at hup
    exact absurd hup (by simp)
  | succ fuel ih =>
    intro d hfuel l w sub p hup
    by_cases hd : d < 31
    · by_cases hio : w.stem ⟨d, hd⟩ = l.stem ⟨d, hd⟩
      · by_cases hstem : l.stem = w.stem
        · rw [updateChain_eq_arm env hd hio hstem] at hup
          cases hup
          rw [DepthOk_branch]
          exact ⟨rfl, by omega, DepthOk_update_children _
            (DepthOk_update_children _ (fun _ => DepthOk_empty _) _ _ (DepthOk_leaf _ _))
            _ _ (DepthOk_leaf _ _)⟩
        · rw [updateChain_rec_arm env hd hio hstem] at hup
          cases hrec : updateChain env (d + 1) l w with
          | panic => rw [hrec] at hup; exact absurd hup (by simp)
          | fail e => rw [hrec] at hup; exact absurd hup (by simp)
          | ok sub' p' =>
            rw [hrec] at hup
            simp only [UpdateResult.ok.injEq] at hup
            obtain ⟨hsub, -⟩ := hup
            subst hsub
            have hsub' := ih (d + 1) (by omega) l w sub' p' hrec
            rw [DepthOk_branch]
            exact ⟨rfl, by omega, DepthOk_update_children _
              (DepthOk_update_children _ (fun _ => DepthOk_empty _) _ _ (DepthOk_leaf _ _))
              _ _ hsub'⟩
      · rw [updateChain_new_arm env hd hio] at hup
        cases hup
        rw [DepthOk_branch]
        exact ⟨rfl, by omega, DepthOk_update_children _
          (DepthOk_update_children _ (fun _ => DepthOk_empty _) _ _ (DepthOk_leaf _ _))
          _ _ (DepthOk_leaf _ _)⟩
    · rw [updateChain_ge env hd] at hup
      exact absurd hup (by simp)

/-- `BranchNode::insert` preserves the depth invariant. -/
theorem insert_DepthOk (n : Node Point Value) :
    ∀ (e : ℕ) (k : TrieKey) (v : Value) (n' : Node Point Value),
      n.DepthOk e → Node.insert env n k v = some n' → n'.DepthOk e := by
  induction n with
  | empty => intro e k v n' _ h; exact absurd h (by simp [Node.insert])
  | leaf l => intro e k v n' _ h; exact absurd h (by simp [Node.insert])
  | branch d c ch ih =>
    intro e k v n' hdep hins
    rw [DepthOk_branch] at hdep
    obtain ⟨hde, hd30, hchd⟩ := hdep
    cases hkg : keyGet k d with
    | none => rw [Node.insert, hkg] at hins; exact absurd hins (by simp)
    | some idx =>
      cases hch2 : ch idx with
      | empty =>
        rw [insert_empty_arm env hkg hch2] at hins
        cases hins
        exact DepthOk_branch.mpr ⟨hde, hd30,
          DepthOk_update_children ch hchd idx _ (DepthOk_leaf _ _)⟩
      | branch d' c' ch' =>
        rw [insert_recurse_arm env hkg hch2] at hins
        cases hrec : Node.insert env (Node.branch d' c' ch') k v with
        | none => rw [hrec] at hins; exact absurd hins (by simp)
        | some child' =>
          rw [hrec] at hins
          simp only [Option.map_some'] at hins
          cases hins
          have hihx := ih idx
          rw [hch2] at hihx
          have hchild' := hihx (e + 1) k v child' (by
            have := hchd idx
            rwa [hch2] at this) hrec
          exact DepthOk_branch.mpr ⟨hde, hd30,
            DepthOk_update_children ch hchd idx _ hchild'⟩
      | leaf l =>
        by_cases hstem : l.stem = k.stem
        · rw [insert_leaf_set_arm env hkg hch2 hstem] at hins
          cases hins
          exact DepthOk_branch.mpr ⟨hde, hd30,
            DepthOk_update_children ch hchd idx _ (DepthOk_leaf _ _)⟩
        · rw [insert_leaf_split_arm env hkg hch2 hstem] at hins
          cases hrec : insertChain env (d + 1) l k v with
          | none => rw [hrec] at hins; exact absurd hins (by simp)
          | some sub =>
            rw [hrec] at hins
            simp only [Option.map_some'] at hins
            cases hins
            have hsub := insertChain_DepthOk env 31 (d + 1) (by omega) l k v sub hrec
            rw [hde] at hsub
            exact DepthOk_branch.mpr ⟨hde, hd30,
              DepthOk_update_children ch hchd idx _ hsub⟩

/-- `BranchNode::update` preserves the depth invariant. -/
theorem update_DepthOk (n : Node Point Value) :
    ∀ (e : ℕ) (w : StemStateWrite Value) (n' : Node Point Value) (p : Option (List Byte)),
      n.DepthOk e → Node.update env n w = UpdateResult.ok n' p → n'.DepthOk e := by
  induction n with
  | empty => intro e w n' p _ h; exact absurd h (by simp [Node.update])
  | leaf l => intro e w n' p _ h; exact absurd h (by simp [Node.update])
  | branch d c ch ih =>
    intro e w n' p hdep hup
    rw [DepthOk_branch] at hdep
    obtain ⟨hde, hd30, hchd⟩ := hdep
    cases hsg : stemGet w.stem d with
    | none => rw [Node.update, hsg] at hup; exact absurd hup (by simp)
    | some idx =>
      cases hch2 : ch idx with
      | empty =>
        rw [update_empty_arm env hsg hch2] at hup
        simp only [UpdateResult.ok.injEq] at hup
        obtain ⟨hn', -⟩ := hup
        subst hn'
        exact DepthOk_branch.mpr ⟨hde, hd30,
          DepthOk_update_children ch hchd idx _ (DepthOk_leaf _ _)⟩
      | branch d' c' ch' =>
        rw [update_recurse_arm env hsg hch2] at hup
        cases hrec : Node.update env (Node.branch d' c' ch') w with
        | panic => rw [hrec] at hup; exact absurd hup (by simp)
        | fail e0 => rw [hrec] at hup; exact absurd hup (by simp)
        | ok child' created =>
          rw [hrec] at hup
          simp only [UpdateResult.ok.injEq] at hup
          obtain ⟨hn', -⟩ := hup
          subst hn'
          have hihx := ih idx
          rw [hch2] at hihx
          have hchild' := hihx (e + 1) w child' created (by
            have := hchd idx
            rwa [hch2] at this) hrec
          exact DepthOk_branch.mpr ⟨hde, hd30,
            DepthOk_update_children ch hchd idx _ hchild'⟩
      | leaf l =>
        by_cases hstem : l.stem = w.stem
        · rw [update_leaf_eq_arm env hsg hch2 hstem] at hup
          simp only [UpdateResult.ok.injEq] at hup
          obtain ⟨hn', -⟩ := hup
          subst hn'
          exact DepthOk_branch.mpr ⟨hde, hd30,
            DepthOk_update_children ch hchd idx _ (DepthOk_leaf _ _)⟩
        · rw [update_leaf_split_arm env hsg hch2 hstem] at hup
          cases hrec : updateChain env (d + 1) l w with
          | panic => rw [hrec] at hup; exact absurd hup (by simp)
          | fail e0 => rw [hrec] at hup; exact absurd hup (by simp)
          | ok sub p' =>
            rw [hrec] at hup
            simp only [UpdateResult.ok.injEq] at hup
            obtain ⟨hn', -⟩ := hup
            subst hn'
            have hsub := updateChain_DepthOk env 31 (d + 1) (by omega) l w sub p' hrec
            rw [hde] at hsub
            exact DepthOk_branch.mpr ⟨hde, hd30,
              DepthOk_update_children ch hchd idx _ hsub⟩

/-- C7.  `BranchNode::new(depth)` with `depth ≥ 31` aborts (panics), and the
depth invariant — every branch's `depth` field is its positional depth, with
`0 ≤ depth ≤ 30` — is preserved by `insert` and `update` from the root: the
split cascade only constructs branches behind the `new` guard, so descent
never builds a branch deeper than 30 for 31-byte stems. -/
theorem C7_depth_limit :
    (∀ d : ℕ, 31 ≤ d → (newBranch d : Option (Node Point Value)) = none) ∧
    (∀ (n : Node Point Value) (k : TrieKey) (v : Value) (n' : Node Point Value),
      n.DepthOk 0 → Node.insert env n k v = some n' → n'.DepthOk 0) ∧
    (∀ (n : Node Point Value) (w : StemStateWrite Value) (n' : Node Point Value)
      (p : Option (List Byte)),
      n.DepthOk 0 → Node.update env n w = UpdateResult.ok n' p → n'.DepthOk 0) :=
  ⟨fun d hd => (newBranch_none_iff d).mpr hd,
   fun n k v n' h hins => insert_DepthOk env n 0 k v n' h hins,
   fun n w n' p h hup => update_DepthOk env n 0 w n' p h hup⟩

/-! ### Bundle and fragments (claim C4) -/

/-- The elided (`None`) fragment commitment is the zero point, so `getD 0`
recovers the eight-term sum in every case. -/
theorem fragComm_getD [DecidableEq Point] (d : ℕ) (c : Point)
    (ch : Fin 256 → Node Point Value) (f : Fin 32) :
    ((Node.branch d c ch).fragComm env f).getD 0 =
      ∑ k : Fin 8, (if (ch (fragIndex f k)).commitment = 0 then 0
        else env.hash ((ch (fragIndex f k)).commitment) • env.G (fragIndex f k)) := by
  rw [Node.fragComm]
  by_cases hs : (∑ k : Fin 8, (if (ch (fragIndex f k)).commitment = 0 then 0
      else env.hash ((ch (fragIndex f k)).commitment) • env.G (fragIndex f k))) = 0
  · simp [hs]
  · simp [hs]

/-- Summing over the 32 fragments of 8 children each is summing over all 256
children. -/
theorem sum_fragIndex (g : Fin 256 → Point) :
    (∑ f : Fin 32, ∑ k : Fin 8, g (fragIndex f k)) = ∑ i : Fin 256, g i := by
  have h1 : (∑ p : Fin 32 × Fin 8, g (fragIndex p.1 p.2)) =
      ∑ f : Fin 32, ∑ k : Fin 8, g (fragIndex f k) := Fintype.sum_prod_type _
  rw [← h1]
  have hbij : Function.Bijective (fun p : Fin 32 × Fin 8 => fragIndex p.1 p.2) := by
    rw [Fintype.bijective_iff_injective_and_card]
    refine ⟨?_, rfl⟩
    intro p q hpq
    have h1 : 8 * p.1.val + p.2.val = 8 * q.1.val + q.2.val := congrArg Fin.val hpq
    have h2 := p.2.isLt
    have h3 := q.2.isLt
    have : p.1.val = q.1.val ∧ p.2.val = q.2.val := by omega
    exact Prod.ext (Fin.ext this.1) (Fin.ext this.2)
  exact Fintype.sum_bijective _ hbij _ g (fun p => rfl)

/-- C4.  For a branch satisfying its commitment identity, the sum of its 32
fragment commitments (`None` standing for zero) equals the branch commitment,
so the extracted bundle node's commitment equals the branch commitment. -/
theorem C4_bundle_commitment_eq_branch [DecidableEq Point] (d : ℕ) (c : Point)
    (ch : Fin 256 → Node Point Value)
    (hc : c = ∑ i : Fin 256, env.hash ((ch i).commitment) • env.G i) :
    bundleCommitment ((Node.branch d c ch).extractBundleNode env) =
      (Node.branch d c ch).commitment := by
  rw [bundleCommitment, Node.extractBundleNode]
  simp only
  rw [Finset.sum_congr rfl (fun f _ => fragComm_getD env d c ch f)]
  rw [sum_fragIndex (fun i => (if (ch i).commitment = 0 then 0
    else env.hash ((ch i).commitment) • env.G i))]
  rw [Node.commitment_branch, hc]
  refine Finset.sum_congr rfl (fun i _ => ?_)
  by_cases hz : (ch i).commitment = 0
  · rw [if_pos hz, hz, env.hash_zero, zero_smul]
  · rw [if_neg hz]

/-! ### The created-branch path of `update` (claim C5) -/

@[simp] theorem isBranchAt_empty (r : List Byte) :
    (Node.empty : Node Point Value).isBranchAt r = false := by
  cases r <;> rfl

@[simp] theorem isBranchAt_leaf (l : LeafNode Point Value) (r : List Byte) :
    (Node.leaf l).isBranchAt r = false := by
  cases r <;> rfl

@[simp] theorem isBranchAt_branch_nil (d : ℕ) (c : Point)
    (ch : Fin 256 → Node Point Value) :
    (Node.branch d c ch).isBranchAt [] = true := rfl

@[simp] theorem isBranchAt_branch_cons (d : ℕ) (c : Point)
    (ch : Fin 256 → Node Point Value) (i : Byte) (r : List Byte) :
    (Node.branch d c ch).isBranchAt (i :: r) = (ch i).isBranchAt r := rfl

theorem stemGet_eq_some {s : Stem} {d : ℕ} {idx : Byte}
    (h : stemGet s d = some idx) : ∃ hd : d < 31, idx = s ⟨d, hd⟩ := by
  rw [stemGet] at h
  by_cases hd : d < 31
  · rw [dif_pos hd] at h
    exact ⟨hd, (Option.some.injEq _ _ ▸ h).symm⟩
  · rw [dif_neg hd] at h
    exact absurd h (by simp)

theorem stemSlice_succ_of_lt (s : Stem) {e : ℕ} (he : e < 31) (m : ℕ) :
    stemSlice s e (m + 1) = s ⟨e, he⟩ :: stemSlice s (e + 1) m := by
  rw [stemSlice, dif_pos he]

/-- At the root, the relative descent path is the stem prefix the code
returns as the `TriePath`. -/
theorem stemSlice_zero_eq_take (s : Stem) :
    ∀ (m e : ℕ), e + m ≤ 31 →
      stemSlice s e m = ((List.ofFn s).drop e).take m := by
  intro m
  induction m with
  | zero => intro e he; rfl
  | succ m ih =>
    intro e he
    have he31 : e < 31 := by omega
    rw [stemSlice_succ_of_lt s he31, ih (e + 1) (by omega)]
    have hlen : e < (List.ofFn s).length := by
      rw [List.length_ofFn]
      exact he31
    rw [List.drop_eq_getElem_cons hlen, List.take_succ_cons]
    congr 1
    rw [List.getElem_ofFn]

/-- Replacing a child by a leaf creates no branch position. -/
theorem isBranchAt_update_leaf {d d2 : ℕ} {c c2 : Point}
    {ch : Fin 256 → Node Point Value} {idx : Byte} {l2 : LeafNode Point Value} :
    ∀ r, (Node.branch d2 c2 (Function.update ch idx (Node.leaf l2))).isBranchAt r = true →
      (Node.branch d c ch).isBranchAt r = true := by
  intro r
  cases r with
  | nil => simp
  | cons j t =>
    simp only [isBranchAt_branch_cons]
    by_cases hj : j = idx
    · subst hj
      rw [Function.update_same]
      simp
    · rw [Function.update_noteq hj]
      exact id

/-- Every `Ok` of the update split cascade is a branch at the cascade's
depth. -/
theorem updateChain_ok_branch {d : ℕ} {l : LeafNode Point Value}
    {w : StemStateWrite Value} {sub : Node Point Value} {p : Option (List Byte)}
    (h : updateChain env d l w = UpdateResult.ok sub p) :
    ∃ c2 ch2, sub = Node.branch d c2 ch2 := by
  by_cases hd : d < 31
  · by_cases hio : w.stem ⟨d, hd⟩ = l.stem ⟨d, hd⟩
    · by_cases hstem : l.stem = w.stem
      · rw [updateChain_eq_arm env hd hio hstem] at h
        simp only [UpdateResult.ok.injEq] at h
        exact ⟨_, _, h.1.symm⟩
      · rw [updateChain_rec_arm env hd hio hstem] at h
        cases hrec : updateChain env (d + 1) l w with
        | panic => rw [hrec] at h; exact absurd h (by simp)
        | fail e => rw [hrec] at h; exact absurd h (by simp)
        | ok sub' p' =>
          rw [hrec] at h
          simp only [UpdateResult.ok.injEq] at h
          exact ⟨_, _, h.1.symm⟩
    · rw [updateChain_new_arm env hd hio] at h
      simp only [UpdateResult.ok.injEq] at h
      exact ⟨_, _, h.1.symm⟩
  · rw [updateChain_ge env hd] at h
    exact absurd h (by simp)

/-- The full characterisation of the `Option<TriePath>` returned by
`BranchNode::update`, relative to the node's depth `e`: `None` creates no
branch position, and `Some q` means the branch positions grew along the
write's stem, `q` being the stem prefix down to the shallowest new branch. -/
theorem update_path_spec (n : Node Point Value) :
    ∀ (e : ℕ) (w : StemStateWrite Value) (n' : Node Point Value)
      (p : Option (List Byte)),
      n.DepthOk e → Node.update env n w = UpdateResult.ok n' p →
      ((p = none → ∀ r, n'.isBranchAt r = true → n.isBranchAt r = true) ∧
       (∀ q, p = some q → ∃ m, 1 ≤ m ∧ e + m ≤ 31 ∧
         q = stemTakeList w.stem (e + m) ∧
         n'.isBranchAt (stemSlice w.stem e m) = true ∧
         n.isBranchAt (stemSlice w.stem e m) = false ∧
         (∀ r, n'.isBranchAt r = true → n.isBranchAt r = false → m ≤ r.length))) := by
  induction n with
  | empty => intro e w n' p _ h; exact absurd h (by simp [Node.update])
  | leaf l => intro e w n' p _ h; exact absurd h (by simp [Node.update])
  | branch d c ch ih =>
    intro e w n' p hdep hup
    rw [DepthOk_branch] at hdep
    obtain ⟨hde, hd30, hchd⟩ := hdep
    subst hde
    cases hsg : stemGet w.stem d with
    | none => rw [Node.update, hsg] at hup; exact absurd hup (by simp)
    | some idx =>
      obtain ⟨hd31, hidx⟩ := stemGet_eq_some hsg
      cases hch2 : ch idx with
      | empty =>
        rw [update_empty_arm env hsg hch2] at hup
        simp only [UpdateResult.ok.injEq] at hup
        obtain ⟨hn', hp⟩ := hup
        subst hn'
        refine ⟨fun _ r hr => isBranchAt_update_leaf r hr, fun q hq => ?_⟩
        rw [← hp] at hq
        exact absurd hq (by simp)
      | branch d' c' ch' =>
        rw [update_recurse_arm env hsg hch2] at hup
        cases hrec : Node.update env (Node.branch d' c' ch') w with
        | panic => rw [hrec] at hup; exact absurd hup (by simp)
        | fail e0 => rw [hrec] at hup; exact absurd hup (by simp)
        | ok child' created =>
          rw [hrec] at hup
          simp only [UpdateResult.ok.injEq] at hup
          obtain ⟨hn', hp⟩ := hup
          subst hn'
          subst hp
          have hihx := ih idx
          rw [hch2] at hihx
          have hchdep : (Node.branch d' c' ch').DepthOk (d + 1) := by
            have := hchd idx
            rwa [hch2] at this
          obtain ⟨hnone, hsome⟩ := hihx (d + 1) w child' created hchdep hrec
          constructor
          · intro hpn r hr
            subst hpn
            cases r with
            | nil => simp
            | cons j t =>
              simp only [isBranchAt_branch_cons] at hr ⊢
              by_cases hj : j = idx
              · subst hj
                rw [Function.update_same] at hr
                rw [hch2]
                exact hnone rfl t hr
              · rwa [Function.update_noteq hj] at hr
          · intro q hq
            obtain ⟨m, hm1, hm31, hqe, hnew', hnew, hmin⟩ := hsome q hq
            refine ⟨m + 1, by omega, by omega, ?_, ?_, ?_, ?_⟩
            · rw [hqe]
              exact congrArg (stemTakeList w.stem) (by omega)
            · rw [stemSlice_succ_of_lt w.stem hd31, ← hidx]
              simp only [isBranchAt_branch_cons, Function.update_same]
              exact hnew'
            · rw [stemSlice_succ_of_lt w.stem hd31, ← hidx]
              simp only [isBranchAt_branch_cons, hch2]
              exact hnew
            · intro r hr' hr
              cases r with
              | nil => simp at hr
              | cons j t =>
                simp only [isBranchAt_branch_cons] at hr' hr
                by_cases hj : j = idx
                · subst hj
                  rw [Function.update_same] at hr'
                  rw [hch2] at hr
                  have := hmin t hr' hr
                  simp only [List.length_cons]
                  omega
                · rw [Function.update_noteq hj] at hr'
                  rw [hr'] at hr
                  exact absurd hr (by simp)
      | leaf l =>
        by_cases hstem : l.stem = w.stem
        · rw [update_leaf_eq_arm env hsg hch2 hstem] at hup
          simp only [UpdateResult.ok.injEq] at hup
          obtain ⟨hn', hp⟩ := hup
          subst hn'
          refine ⟨fun _ r hr => isBranchAt_update_leaf r hr, fun q hq => ?_⟩
          rw [← hp] at hq
          exact absurd hq (by simp)
        · rw [update_leaf_split_arm env hsg hch2 hstem] at hup
          cases hrec : updateChain env (d + 1) l w with
          | panic => rw [hrec] at hup; exact absurd hup (by simp)
          | fail e0 => rw [hrec] at hup; exact absurd hup (by simp)
          | ok sub p' =>
            rw [hrec] at hup
            simp only [UpdateResult.ok.injEq] at hup
            obtain ⟨hn', hp⟩ := hup
            subst hn'
            constructor
            · intro hpn
              rw [← hp] at hpn
              exact absurd hpn (by simp)
            · intro q hq
              rw [← hp] at hq
              simp only [Option.some.injEq] at hq
              obtain ⟨c2, ch2, hsub⟩ := updateChain_ok_branch env hrec
              refine ⟨1, le_refl 1, by omega, ?_, ?_, ?_, ?_⟩
              · rw [← hq]
              · rw [stemSlice_succ_of_lt w.stem hd31, ← hidx]
                simp only [isBranchAt_branch_cons, Function.update_same, stemSlice,
                  hsub, isBranchAt_branch_nil]
              · rw [stemSlice_succ_of_lt w.stem hd31, ← hidx]
                simp only [isBranchAt_branch_cons, hch2, stemSlice, isBranchAt_leaf]
              · intro r hr' hr
                cases r with
                | nil => simp at hr
                | cons j t => simp

/-- C5.  At the root (depth 0), `update` returns `Some q` exactly when the
call created a new branch position, `q` is then the prefix of the write's
stem down to and including the depth of the shallowest branch the call
created, and a call that creates no branch (in particular one that only
creates a leaf) returns `None`. -/
theorem C5_update_created_branch_path (n : Node Point Value)
    (w : StemStateWrite Value) (n' : Node Point Value) (p : Option (List Byte))
    (hdep : n.DepthOk 0) (hup : Node.update env n w = UpdateResult.ok n' p) :
    (p = none → ∀ r, n'.isBranchAt r = true → n.isBranchAt r = true) ∧
    (∀ q, p = some q → q = stemTakeList w.stem q.length ∧
      n'.isBranchAt q = true ∧ n.isBranchAt q = false ∧
      (∀ r, n'.isBranchAt r = true → n.isBranchAt r = false → q.length ≤ r.length)) := by
  obtain ⟨hnone, hsome⟩ := update_path_spec env n 0 w n' p hdep hup
  refine ⟨hnone, fun q hq => ?_⟩
  obtain ⟨m, hm1, hm31, hqe, hnew', hnew, hmin⟩ := hsome q hq
  have hq0 : q = stemTakeList w.stem m := by rwa [Nat.zero_add] at hqe
  have hslice : stemSlice w.stem 0 m = q := by
    rw [stemSlice_zero_eq_take w.stem m 0 (by omega), List.drop_zero, hq0]
    rfl
  have hlen : q.length = m := by
    rw [hq0, stemTakeList, List.length_take, List.length_ofFn]
    omega
  rw [hslice] at hnew' hnew
  refine ⟨?_, hnew', hnew, ?_⟩
  · rw [hlen]
    exact hq0
  · intro r h1 h2
    rw [hlen]
    exact hmin r h1 h2

/-- C9.  `BranchNode::update` never returns `UnexpectedStem`: the leaf-level
`update` is only invoked on a leaf whose stem equals the write's stem —
either the existing leaf behind the equality check, or a leaf freshly
constructed from the write's stem. -/
theorem C9_update_never_unexpectedStem (n : Node Point Value)
    (w : StemStateWrite Value) (e a : Stem) :
    n.update env w ≠ UpdateResult.fail (.unexpectedStem e a) := by
  induction n with
  | empty => simp [Node.update]
  | leaf l => simp [Node.update]
  | branch d c ch ih =>
    rw [Node.update]
    cases hsg : stemGet w.stem d with
    | none => simp
    | some idx =>
      simp only
      cases hch : ch idx with
      | empty =>
        rw [LeafNode.update_new_ok env w]
        simp
      | branch d' c' ch' =>
        have hih := ih idx
        rw [hch] at hih
        cases hrec : (Node.branch d' c' ch').update env w with
        | panic => simp
        | fail e' =>
          intro hcontra
          simp only [UpdateResult.fail.injEq] at hcontra
          exact hih (hcontra ▸ hrec)
        | ok child' created => simp
      | leaf l =>
        by_cases hstem : l.stem = w.stem
        · simp only [if_pos hstem]
          rw [LeafNode.update_stem_eq env l w hstem.symm]
          simp
        · simp only [if_neg hstem]
          cases hrec : updateChain env (d + 1) l w with
          | panic => simp
          | fail e' =>
            intro hcontra
            simp only [UpdateResult.fail.injEq] at hcontra
            exact updateChain_no_unexpectedStem env 31 (d + 1) (by omega) l w e a
              (hcontra ▸ hrec)
          | ok sub p => simp

/-! ### Commutativity of independent writes (claim C6) -/

/-- Telescoping of two incremental deltas on one base. -/
theorem smul_tele (x y z : Fr) (g : Point) :
    (x - y) • g + (z - x) • g = (z - y) • g := by
  rw [← add_smul]
  congr 1
  ring

@[simp] theorem LeafNode.set_stem (l : LeafNode Point Value) (index : Fin 256)
    (v : Value) : (l.set env index v).stem = l.stem := by
  rw [LeafNode.set]
  split <;> rfl

theorem keyGet_none_any {k : TrieKey} {d : ℕ} (h : keyGet k d = none)
    (k' : TrieKey) : keyGet k' d = none := by
  rw [keyGet] at h ⊢
  by_cases h31 : d < 31
  · rw [dif_pos h31] at h
    exact absurd h (by simp)
  · rw [dif_neg h31] at h ⊢
    by_cases h32 : d = 31
    · rw [if_pos h32] at h
      exact absurd h (by simp)
    · rw [if_neg h32] at h ⊢

theorem keyGet_some_any {k : TrieKey} {d : ℕ} {idx : Byte}
    (h : keyGet k d = some idx) (k' : TrieKey) : ∃ idx', keyGet k' d = some idx' := by
  cases h' : keyGet k' d with
  | none => exact absurd (keyGet_none_any h' k) (by simp [h])
  | some i => exact ⟨i, rfl⟩

/-- Every `some` of the insert split cascade is a branch at the cascade's
depth. -/
theorem insertChain_ok_branch {d : ℕ} {l : LeafNode Point Value} {k : TrieKey}
    {v : Value} {sub : Node Point Value}
    (h : insertChain env d l k v = some sub) :
    ∃ c2 ch2, sub = Node.branch d c2 ch2 := by
  by_cases hd : d < 31
  · by_cases hio : k.stem ⟨d, hd⟩ = l.stem ⟨d, hd⟩
    · by_cases hstem : l.stem = k.stem
      · rw [insertChain_set_arm env hd hio hstem] at h
        exact ⟨_, _, (Option.some.injEq _ _ ▸ h).symm⟩
      · rw [insertChain_rec_arm env hd hio hstem] at h
        cases hrec : insertChain env (d + 1) l k v with
        | none => rw [hrec] at h; exact absurd h (by simp)
        | some sub' =>
          rw [hrec] at h
          simp only [Option.map_some', Option.some.injEq] at h
          exact ⟨_, _, h.symm⟩
    · rw [insertChain_new_arm env hd hio] at h
      exact ⟨_, _, (Option.some.injEq _ _ ▸ h).symm⟩
  · rw [insertChain_ge env hd] at h
    exact absurd h (by simp)

/-- Every `some` of `insert` on a branch is a branch at the same depth. -/
theorem insert_ok_branch {d : ℕ} {c : Point} {ch : Fin 256 → Node Point Value}
    {k : TrieKey} {v : Value} {m : Node Point Value}
    (h : Node.insert env (Node.branch d c ch) k v = some m) :
    ∃ c2 ch2, m = Node.branch d c2 ch2 := by
  cases hkg : keyGet k d with
  | none => rw [Node.insert, hkg] at h; exact absurd h (by simp)
  | some idx =>
    cases hch2 : ch idx with
    | empty =>
      rw [insert_empty_arm env hkg hch2] at h
      exact ⟨_, _, (Option.some.injEq _ _ ▸ h).symm⟩
    | branch d' c' ch' =>
      rw [insert_recurse_arm env hkg hch2] at h
      cases hrec : Node.insert env (Node.branch d' c' ch') k v with
      | none => rw [hrec] at h; exact absurd h (by simp)
      | some child' =>
        rw [hrec] at h
        simp only [Option.map_some', Option.some.injEq] at h
        exact ⟨_, _, h.symm⟩
    | leaf l =>
      by_cases hstem : l.stem = k.stem
      · rw [insert_leaf_set_arm env hkg hch2 hstem] at h
        exact ⟨_, _, (Option.some.injEq _ _ ▸ h).symm⟩
      · rw [insert_leaf_split_arm env hkg hch2 hstem] at h
        cases hrec : insertChain env (d + 1) l k v with
        | none => rw [hrec] at h; exact absurd h (by simp)
        | some sub =>
          rw [hrec] at h
          simp only [Option.map_some', Option.some.injEq] at h
          exact ⟨_, _, h.symm⟩

/-- `insert` is the child action at the dispatched index followed by the
commitment delta. -/
theorem insert_eq_childStep {d : ℕ} {c : Point} {ch : Fin 256 → Node Point Value}
    {k : TrieKey} {v : Value} {idx : Byte} (hkg : keyGet k d = some idx) :
    Node.insert env (Node.branch d c ch) k v =
      (childStep env (d + 1) k v (ch idx)).map (fun c' => Node.branch d
        (c + (env.hash c'.commitment - env.hash ((ch idx).commitment)) • env.G idx)
        (Function.update ch idx c')) := by
  cases hch2 : ch idx with
  | empty =>
    rw [insert_empty_arm env hkg hch2]
    rfl
  | branch d' c' ch' =>
    rw [insert_recurse_arm env hkg hch2]
    rfl
  | leaf l =>
    by_cases hstem : l.stem = k.stem
    · rw [insert_leaf_set_arm env hkg hch2 hstem]
      simp only [childStep, if_pos hstem]
      rfl
    · rw [insert_leaf_split_arm env hkg hch2 hstem]
      simp only [childStep, if_neg hstem]
      rfl

/-- Congruence for `Option.map`. -/
theorem optionMapCongr {α β : Type} {f g : α → β} (x : Option α)
    (h : ∀ a, f a = g a) : x.map f = x.map g := by
  cases x <;> simp [h]

/-- Pushing a second `insert` through the branch wrapper: inserting into
`branch d (c + (hash x − h₀) · G_b) (ch[b ↦ x])` for a branch-shaped `x`
telescopes to the same wrapper around the inner insert. -/
theorem insert_bind_map {d : ℕ} (c : Point) (ch : Fin 256 → Node Point Value)
    (b : Byte) (h0 : Fr) {k : TrieKey} (v : Value) (hkb : keyGet k d = some b)
    (X : Option (Node Point Value))
    (hX : ∀ m, X = some m → ∃ d2 c2 ch2, m = Node.branch d2 c2 ch2) :
    (X.map (fun x => Node.branch d (c + (env.hash x.commitment - h0) • env.G b)
        (Function.update ch b x))).bind (fun m => Node.insert env m k v) =
      (X.bind (fun x => Node.insert env x k v)).map
        (fun y => Node.branch d (c + (env.hash y.commitment - h0) • env.G b)
          (Function.update ch b y)) := by
  cases X with
  | none => rfl
  | some x =>
    obtain ⟨d2, c2, ch2, hx⟩ := hX x rfl
    subst hx
    simp only [Option.map_some', Option.some_bind]
    rw [insert_recurse_arm env hkb (Function.update_same _ _ _)]
    cases hrec : Node.insert env (Node.branch d2 c2 ch2) k v with
    | none => rfl
    | some y =>
      simp only [Option.map_some', Node.commitment_branch, Option.some.injEq,
        Node.branch.injEq, true_and]
      refine ⟨?_, ?_⟩
      · rw [add_assoc, smul_tele]
      · rw [Function.update_idem]

/-- Splitting two fresh leaves against each other is symmetric: the cascade
that separates the stems of `k1` and `k2` is the same whichever leaf existed
first. -/
theorem insertChain_pair_comm :
    ∀ (fuel d : ℕ), 31 ≤ d + fuel → ∀ (k1 k2 : TrieKey) (v1 v2 : Value),
      k1.stem ≠ k2.stem →
      insertChain env d ((LeafNode.new env k1.stem).set env k1.suffix v1) k2 v2 =
        insertChain env d ((LeafNode.new env k2.stem).set env k2.suffix v2) k1 v1 := by
  intro fuel
  induction fuel with
  | zero =>
    intro d hf k1 k2 v1 v2 hne
    rw [insertChain_ge env (by omega), insertChain_ge env (by omega)]
  | succ fuel ih =>
    intro d hf k1 k2 v1 v2 hne
    by_cases hd : d < 31
    · have hs1 : ((LeafNode.new env k1.stem).set env k1.suffix v1).stem = k1.stem := by simp
      have hs2 : ((LeafNode.new env k2.stem).set env k2.suffix v2).stem = k2.stem := by simp
      have hb1 : ((LeafNode.new env k1.stem).set env k1.suffix v1).stem ⟨d, hd⟩ =
          k1.stem ⟨d, hd⟩ := by rw [hs1]
      have hb2 : ((LeafNode.new env k2.stem).set env k2.suffix v2).stem ⟨d, hd⟩ =
          k2.stem ⟨d, hd⟩ := by rw [hs2]
      by_cases hb : k2.stem ⟨d, hd⟩ = k1.stem ⟨d, hd⟩
      · have hio1 : k2.stem ⟨d, hd⟩ =
            ((LeafNode.new env k1.stem).set env k1.suffix v1).stem ⟨d, hd⟩ := by
          rw [hb1]; exact hb
        have hio2 : k1.stem ⟨d, hd⟩ =
            ((LeafNode.new env k2.stem).set env k2.suffix v2).stem ⟨d, hd⟩ := by
          rw [hb2]; exact hb.symm
        have hm1 : ((LeafNode.new env k1.stem).set env k1.suffix v1).stem ≠ k2.stem := by
          rw [hs1]; exact hne
        have hm2 : ((LeafNode.new env k2.stem).set env k2.suffix v2).stem ≠ k1.stem := by
          rw [hs2]; exact fun hh => hne hh.symm
        rw [insertChain_rec_arm env hd hio1 hm1, insertChain_rec_arm env hd hio2 hm2,
          ih (d + 1) (by omega) k1 k2 v1 v2 hne]
        apply optionMapCongr
        intro sub
        rw [hb1, hb2, hb, Function.update_idem, Function.update_idem,
          smul_tele, smul_tele]
      · have hio1 : k2.stem ⟨d, hd⟩ ≠
            ((LeafNode.new env k1.stem).set env k1.suffix v1).stem ⟨d, hd⟩ := by
          rw [hb1]; exact hb
        have hio2 : k1.stem ⟨d, hd⟩ ≠
            ((LeafNode.new env k2.stem).set env k2.suffix v2).stem ⟨d, hd⟩ := by
          rw [hb2]; exact fun hh => hb hh.symm
        rw [insertChain_new_arm env hd hio1, insertChain_new_arm env hd hio2,
          hb1, hb2]
        simp only [Option.some.injEq, Node.branch.injEq, true_and]
        refine ⟨add_comm _ _, ?_⟩
        rw [Function.update_comm (fun hh => hb hh.symm)]
    · rw [insertChain_ge env hd, insertChain_ge env hd]

/-- Inserting `k1` into the branch chain obtained by splitting the leaf with
stem `k1.stem` against `k2` is the chain obtained by splitting the already
updated leaf: the descent finds the moved leaf and `set`s it in place. -/
theorem insert_into_chain_set :
    ∀ (fuel d : ℕ), 31 ≤ d + fuel → ∀ (l0 : LeafNode Point Value) (k1 k2 : TrieKey)
      (v1 v2 : Value), l0.stem = k1.stem → k1.stem ≠ k2.stem →
      (insertChain env d l0 k2 v2).bind (fun m => Node.insert env m k1 v1) =
        insertChain env d (l0.set env k1.suffix v1) k2 v2 := by
  intro fuel
  induction fuel with
  | zero =>
    intro d hf l0 k1 k2 v1 v2 h01 hne
    rw [insertChain_ge env (by omega), insertChain_ge env (by omega)]
    rfl
  | succ fuel ih =>
    intro d hf l0 k1 k2 v1 v2 h01 hne
    by_cases hd : d < 31
    · have hsset : (l0.set env k1.suffix v1).stem = l0.stem := by simp
      have h02 : l0.stem ≠ k2.stem := by rw [h01]; exact hne
      have h02' : (l0.set env k1.suffix v1).stem ≠ k2.stem := by
        rw [hsset, h01]; exact hne
      have hkb : keyGet k1 d = some (l0.stem ⟨d, hd⟩) := by
        rw [keyGet, dif_pos hd, ← h01]
      by_cases hbc : k2.stem ⟨d, hd⟩ = l0.stem ⟨d, hd⟩
      · have hio : k2.stem ⟨d, hd⟩ = (l0.set env k1.suffix v1).stem ⟨d, hd⟩ := by
          rw [hsset]; exact hbc
        rw [insertChain_rec_arm env hd hbc h02, insertChain_rec_arm env hd hio h02',
          ← ih (d + 1) (by omega) l0 k1 k2 v1 v2 h01 hne]
        rw [insert_bind_map env _ _ _ _ v1 (by rw [hkb, hbc]) _
          (fun m hm => by
            obtain ⟨c2, ch2, hm2⟩ := insertChain_ok_branch env hm
            exact ⟨d + 1, c2, ch2, hm2⟩)]
        apply optionMapCongr
        intro y
        rw [hsset, hbc, Function.update_idem, Function.update_idem,
          smul_tele, smul_tele]
      · have hio' : k2.stem ⟨d, hd⟩ ≠ (l0.set env k1.suffix v1).stem ⟨d, hd⟩ := by
          rw [hsset]; exact hbc
        rw [insertChain_new_arm env hd hbc, insertChain_new_arm env hd hio', hsset]
        simp only [Option.some_bind]
        rw [insert_leaf_set_arm env hkb (by
            rw [Function.update_noteq (fun hh => hbc hh.symm), Function.update_same])
          h01]
        simp only [Option.some.injEq, Node.branch.injEq, true_and]
        refine ⟨?_, ?_⟩
        · rw [add_right_comm, smul_tele]
        · rw [Function.update_comm hbc, Function.update_idem]
    · rw [insertChain_ge env hd, insertChain_ge env hd]
      rfl

/-- Splitting a third leaf: the case where `k1` shares its next byte with the
old leaf and `k2` diverges here.  Both orders build the same tree, with no
recursion needed. -/
theorem chain_bind_comm_shareOld {d : ℕ} (hd : d < 31) (l0 : LeafNode Point Value)
    (k1 k2 : TrieKey) (v1 v2 : Value)
    (h01 : l0.stem ≠ k1.stem) (h02 : l0.stem ≠ k2.stem)
    (hb : k1.stem ⟨d, hd⟩ = l0.stem ⟨d, hd⟩) (hc : k2.stem ⟨d, hd⟩ ≠ l0.stem ⟨d, hd⟩) :
    (insertChain env d l0 k1 v1).bind (fun m => Node.insert env m k2 v2) =
      (insertChain env d l0 k2 v2).bind (fun m => Node.insert env m k1 v1) := by
  have hkb1 : keyGet k1 d = some (k1.stem ⟨d, hd⟩) := by rw [keyGet, dif_pos hd]
  have hkb2 : keyGet k2 d = some (k2.stem ⟨d, hd⟩) := by rw [keyGet, dif_pos hd]
  rw [insertChain_rec_arm env hd hb h01, insertChain_new_arm env hd hc]
  simp only [Option.some_bind]
  rw [insert_leaf_split_arm env hkb1 (by
      rw [hb, Function.update_noteq (Ne.symm hc)]
      try rw [Function.update_same]) h01]
  cases hA : insertChain env (d + 1) l0 k1 v1 with
  | none => simp
  | some a' =>
    simp only [Option.map_some', Option.some_bind]
    rw [insert_empty_arm env hkb2 (by
      rw [hb, Function.update_noteq hc, Function.update_noteq hc]
      try rfl)]
    simp only [Option.some.injEq, Node.branch.injEq, true_and]
    refine ⟨?_, ?_⟩
    · rw [add_right_comm]
    · rw [hb, Function.update_comm hc]

/-- Splitting a third leaf: all three next bytes distinct.  Both orders add
two independent leaves beside the old one. -/
theorem chain_bind_comm_distinct {d : ℕ} (hd : d < 31) (l0 : LeafNode Point Value)
    (k1 k2 : TrieKey) (v1 v2 : Value)
    (hb : k1.stem ⟨d, hd⟩ ≠ l0.stem ⟨d, hd⟩) (hc : k2.stem ⟨d, hd⟩ ≠ l0.stem ⟨d, hd⟩)
    (hbc : k1.stem ⟨d, hd⟩ ≠ k2.stem ⟨d, hd⟩) :
    (insertChain env d l0 k1 v1).bind (fun m => Node.insert env m k2 v2) =
      (insertChain env d l0 k2 v2).bind (fun m => Node.insert env m k1 v1) := by
  have hkb1 : keyGet k1 d = some (k1.stem ⟨d, hd⟩) := by rw [keyGet, dif_pos hd]
  have hkb2 : keyGet k2 d = some (k2.stem ⟨d, hd⟩) := by rw [keyGet, dif_pos hd]
  rw [insertChain_new_arm env hd hb, insertChain_new_arm env hd hc]
  simp only [Option.some_bind]
  rw [insert_empty_arm env hkb2 (by
    rw [Function.update_noteq (Ne.symm hbc)]
    try rw [Function.update_noteq hc]
    try rfl)]
  rw [insert_empty_arm env hkb1 (by
    rw [Function.update_noteq hbc]
    try rw [Function.update_noteq hb]
    try rfl)]
  simp only [Option.some.injEq, Node.branch.injEq, true_and]
  refine ⟨?_, ?_⟩
  · rw [add_right_comm]
  · rw [Function.update_comm (Ne.symm hbc)]

/-- Splitting a third leaf: `k1` and `k2` share their next byte, which
differs from the old leaf's.  Both orders split the two fresh leaves against
each other, which is symmetric by `insertChain_pair_comm`. -/
theorem chain_bind_comm_shareNew {d : ℕ} (hd : d < 31) (l0 : LeafNode Point Value)
    (k1 k2 : TrieKey) (v1 v2 : Value)
    (h01 : l0.stem ≠ k1.stem) (h02 : l0.stem ≠ k2.stem) (h12 : k1.stem ≠ k2.stem)
    (hb : k1.stem ⟨d, hd⟩ ≠ l0.stem ⟨d, hd⟩) (hcb : k2.stem ⟨d, hd⟩ = k1.stem ⟨d, hd⟩) :
    (insertChain env d l0 k1 v1).bind (fun m => Node.insert env m k2 v2) =
      (insertChain env d l0 k2 v2).bind (fun m => Node.insert env m k1 v1) := by
  have hkb1 : keyGet k1 d = some (k1.stem ⟨d, hd⟩) := by rw [keyGet, dif_pos hd]
  have hkb2 : keyGet k2 d = some (k2.stem ⟨d, hd⟩) := by rw [keyGet, dif_pos hd]
  have hc : k2.stem ⟨d, hd⟩ ≠ l0.stem ⟨d, hd⟩ := by rw [hcb]; exact hb
  rw [insertChain_new_arm env hd hb, insertChain_new_arm env hd hc]
  simp only [Option.some_bind]
  rw [insert_leaf_split_arm env hkb2 (by
      rw [hcb]
      try rw [Function.update_same])
    (by simpa using h12)]
  rw [insert_leaf_split_arm env hkb1 (by
      rw [← hcb]
      try rw [Function.update_same])
    (by simpa using fun hh => h12 hh.symm)]
  rw [insertChain_pair_comm env 31 (d + 1) (by omega) k2 k1 v2 v1
    (fun hh => h12 hh.symm)]
  apply optionMapCongr
  intro sub
  rw [hcb, Function.update_idem, Function.update_idem, add_assoc, smul_tele,
    add_assoc, smul_tele]

/-- Inserting a second and a third stem below a split commutes. -/
theorem insert_into_chain_third :
    ∀ (fuel d : ℕ), 31 ≤ d + fuel → ∀ (l0 : LeafNode Point Value) (k1 k2 : TrieKey)
      (v1 v2 : Value), l0.stem ≠ k1.stem → l0.stem ≠ k2.stem → k1.stem ≠ k2.stem →
      (insertChain env d l0 k1 v1).bind (fun m => Node.insert env m k2 v2) =
        (insertChain env d l0 k2 v2).bind (fun m => Node.insert env m k1 v1) := by
  intro fuel
  induction fuel with
  | zero =>
    intro d hf l0 k1 k2 v1 v2 h01 h02 h12
    rw [insertChain_ge env (by omega), insertChain_ge env (by omega)]
    rfl
  | succ fuel ih =>
    intro d hf l0 k1 k2 v1 v2 h01 h02 h12
    by_cases hd : d < 31
    · by_cases hb : k1.stem ⟨d, hd⟩ = l0.stem ⟨d, hd⟩
      · by_cases hc : k2.stem ⟨d, hd⟩ = l0.stem ⟨d, hd⟩
        · rw [insertChain_rec_arm env hd hb h01, insertChain_rec_arm env hd hc h02]
          rw [insert_bind_map env _ _ _ _ v2 (by rw [keyGet, dif_pos hd, hc, hb]) _
            (fun m hm => by
              obtain ⟨c2, ch2, hm2⟩ := insertChain_ok_branch env hm
              exact ⟨d + 1, c2, ch2, hm2⟩)]
          rw [insert_bind_map env _ _ _ _ v1 (by rw [keyGet, dif_pos hd, hb, hc]) _
            (fun m hm => by
              obtain ⟨c2, ch2, hm2⟩ := insertChain_ok_branch env hm
              exact ⟨d + 1, c2, ch2, hm2⟩)]
          rw [ih (d + 1) (by omega) l0 k1 k2 v1 v2 h01 h02 h12, hb, hc]
        · exact chain_bind_comm_shareOld env hd l0 k1 k2 v1 v2 h01 h02 hb hc
      · by_cases hc : k2.stem ⟨d, hd⟩ = l0.stem ⟨d, hd⟩
        · exact (chain_bind_comm_shareOld env hd l0 k2 k1 v2 v1 h02 h01 hc hb).symm
        · by_cases hbc : k1.stem ⟨d, hd⟩ = k2.stem ⟨d, hd⟩
          · exact chain_bind_comm_shareNew env hd l0 k1 k2 v1 v2 h01 h02 h12 hb hbc.symm
          · exact chain_bind_comm_distinct env hd l0 k1 k2 v1 v2 hb hc hbc
    · rw [insertChain_ge env hd, insertChain_ge env hd]
      rfl

/-- Two inserts dispatched to different children of one branch commute. -/
theorem insert_comm_ne_index {d : ℕ} {c : Point} {ch : Fin 256 → Node Point Value}
    {k1 k2 : TrieKey} {v1 v2 : Value} {idx1 idx2 : Byte}
    (hkg1 : keyGet k1 d = some idx1) (hkg2 : keyGet k2 d = some idx2)
    (hne : idx1 ≠ idx2) :
    (Node.insert env (Node.branch d c ch) k1 v1).bind
        (fun m => Node.insert env m k2 v2) =
      (Node.insert env (Node.branch d c ch) k2 v2).bind
        (fun m => Node.insert env m k1 v1) := by
  rw [insert_eq_childStep env hkg1, insert_eq_childStep env hkg2]
  cases hS1 : childStep env (d + 1) k1 v1 (ch idx1) with
  | none =>
    cases hS2 : childStep env (d + 1) k2 v2 (ch idx2) with
    | none => rfl
    | some c2' =>
      simp only [Option.map_none', Option.map_some', Option.none_bind,
        Option.some_bind]
      rw [insert_eq_childStep env hkg1, Function.update_noteq hne, hS1]
      rfl
  | some c1' =>
    cases hS2 : childStep env (d + 1) k2 v2 (ch idx2) with
    | none =>
      simp only [Option.map_none', Option.map_some', Option.none_bind,
        Option.some_bind]
      rw [insert_eq_childStep env hkg2, Function.update_noteq (Ne.symm hne), hS2]
      rfl
    | some c2' =>
      simp only [Option.map_some', Option.some_bind]
      rw [insert_eq_childStep env hkg2, Function.update_noteq (Ne.symm hne), hS2,
        insert_eq_childStep env hkg1, Function.update_noteq hne, hS1]
      simp only [Option.map_some', Option.some.injEq, Node.branch.injEq, true_and]
      refine ⟨?_, ?_⟩
      · rw [add_right_comm]
      · rw [Function.update_comm hne]

/-- Two inserts on the same child slot, the first hitting its own leaf
in-place and the second splitting it, commute. -/
theorem insert_comm_leaf_set {d : ℕ} {c : Point} {ch : Fin 256 → Node Point Value}
    {k1 k2 : TrieKey} {v1 v2 : Value} {idx : Byte} {l0 : LeafNode Point Value}
    (hkg1 : keyGet k1 d = some idx) (hkg2 : keyGet k2 d = some idx)
    (hch2 : ch idx = Node.leaf l0) (hs1 : l0.stem = k1.stem)
    (hne : k1.stem ≠ k2.stem) :
    (Node.insert env (Node.branch d c ch) k1 v1).bind
        (fun m => Node.insert env m k2 v2) =
      (Node.insert env (Node.branch d c ch) k2 v2).bind
        (fun m => Node.insert env m k1 v1) := by
  rw [insert_leaf_set_arm env hkg1 hch2 hs1,
    insert_leaf_split_arm env hkg2 hch2 (by rw [hs1]; exact hne)]
  simp only [Option.some_bind]
  rw [insert_leaf_split_arm env hkg2 (Function.update_same _ _ _)
    (by simpa [hs1] using hne)]
  rw [← insert_into_chain_set env 31 (d + 1) (by omega) l0 k1 k2 v1 v2 hs1 hne]
  rw [insert_bind_map env _ _ _ _ v1 hkg1 _ (fun m hm => by
    obtain ⟨c2, ch2, hm2⟩ := insertChain_ok_branch env hm
    exact ⟨d + 1, c2, ch2, hm2⟩)]
  apply optionMapCongr
  intro y
  rw [Function.update_idem, add_assoc, smul_tele]

/-- Inserting two keys with different stems commutes, as full tries. -/
theorem insert_comm (n : Node Point Value) :
    ∀ (k1 k2 : TrieKey) (v1 v2 : Value), k1.stem ≠ k2.stem →
      (Node.insert env n k1 v1).bind (fun m => Node.insert env m k2 v2) =
        (Node.insert env n k2 v2).bind (fun m => Node.insert env m k1 v1) := by
  induction n with
  | empty => intro k1 k2 v1 v2 _; rfl
  | leaf l => intro k1 k2 v1 v2 _; rfl
  | branch d c ch ih =>
    intro k1 k2 v1 v2 hne
    cases hkg1 : keyGet k1 d with
    | none =>
      have hkg2 := keyGet_none_any hkg1 k2
      have h1 : Node.insert env (Node.branch d c ch) k1 v1 = none := by
        rw [Node.insert, hkg1]
      have h2 : Node.insert env (Node.branch d c ch) k2 v2 = none := by
        rw [Node.insert, hkg2]
      rw [h1, h2]
      rfl
    | some idx1 =>
      obtain ⟨idx2, hkg2⟩ := keyGet_some_any hkg1 k2
      by_cases hi : idx1 = idx2
      · subst hi
        cases hch2 : ch idx1 with
        | empty =>
          rw [insert_empty_arm env hkg1 hch2, insert_empty_arm env hkg2 hch2]
          simp only [Option.some_bind]
          rw [insert_leaf_split_arm env hkg2 (Function.update_same _ _ _)
            (by simpa using hne)]
          rw [insert_leaf_split_arm env hkg1 (Function.update_same _ _ _)
            (by simpa using fun hh => hne hh.symm)]
          rw [insertChain_pair_comm env 31 (d + 1) (by omega) k1 k2 v1 v2 hne]
          apply optionMapCongr
          intro sub
          rw [Function.update_idem, Function.update_idem, add_assoc, smul_tele,
            add_assoc, smul_tele]
        | branch d' c' ch' =>
          rw [insert_recurse_arm env hkg1 hch2, insert_recurse_arm env hkg2 hch2]
          rw [insert_bind_map env _ _ _ _ v2 hkg2 _ (fun m hm => by
            obtain ⟨c2, ch2, hm2⟩ := insert_ok_branch env hm
            exact ⟨d', c2, ch2, hm2⟩)]
          rw [insert_bind_map env _ _ _ _ v1 hkg1 _ (fun m hm => by
            obtain ⟨c2, ch2, hm2⟩ := insert_ok_branch env hm
            exact ⟨d', c2, ch2, hm2⟩)]
          have hihx := ih idx1
          rw [hch2] at hihx
          rw [hihx k1 k2 v1 v2 hne]
        | leaf l0 =>
          by_cases hs1 : l0.stem = k1.stem
          · exact insert_comm_leaf_set env hkg1 hkg2 hch2 hs1 hne
          · by_cases hs2 : l0.stem = k2.stem
            · exact (insert_comm_leaf_set env hkg2 hkg1 hch2 hs2
                (fun hh => hne hh.symm)).symm
            · rw [insert_leaf_split_arm env hkg1 hch2 hs1,
                insert_leaf_split_arm env hkg2 hch2 hs2]
              rw [insert_bind_map env _ _ _ _ v2 hkg2 _ (fun m hm => by
                obtain ⟨c2, ch2, hm2⟩ := insertChain_ok_branch env hm
                exact ⟨d + 1, c2, ch2, hm2⟩)]
              rw [insert_bind_map env _ _ _ _ v1 hkg1 _ (fun m hm => by
                obtain ⟨c2, ch2, hm2⟩ := insertChain_ok_branch env hm
                exact ⟨d + 1, c2, ch2, hm2⟩)]
              rw [insert_into_chain_third env 31 (d + 1) (by omega) l0 k1 k2 v1 v2
                hs1 hs2 hne]
      · exact insert_comm_ne_index env hkg1 hkg2 hi

/-- C6.  Two single-key writes with different stems commute: applying them to
the same trie in either order yields the same root commitment (indeed the
same trie), including when one order splits a leaf and the other builds the
branch incrementally. -/
theorem C6_independent_inserts_commute (n : Node Point Value) (k1 k2 : TrieKey)
    (v1 v2 : Value) (hne : k1.stem ≠ k2.stem) :
    ((Node.insert env n k1 v1).bind (fun m => Node.insert env m k2 v2)).map
        Node.commitment =
      ((Node.insert env n k2 v2).bind (fun m => Node.insert env m k1 v1)).map
        Node.commitment := by
  rw [insert_comm env n k1 k2 v1 v2 hne]

end Pv

namespace Genesis

/-! ## Byte order on stems (claim C8) -/

variable {Addr Value : Type}

theorem bytesCmp_cons (a b : Byte) (as bs : List Byte) :
    bytesCmp (a :: as) (b :: bs) =
      if a < b then .lt else if b < a then .gt else bytesCmp as bs := rfl

theorem bytesCmp_eq_iff (a : List Byte) : ∀ b, bytesCmp a b = .eq ↔ a = b := by
  induction a with
  | nil => intro b; cases b <;> simp [bytesCmp]
  | cons x as ih =>
    intro b
    cases b with
    | nil => simp [bytesCmp]
    | cons y bs =>
      rw [bytesCmp_cons]
      by_cases hxy : x < y
      · rw [if_pos hxy]
        constructor
        · intro h; exact Ordering.noConfusion h
        · intro h
          injection h with h1 _
          subst h1
          exact absurd hxy (lt_irrefl _)
      · by_cases hyx : y < x
        · rw [if_neg hxy, if_pos hyx]
          constructor
          · intro h; exact Ordering.noConfusion h
          · intro h
            injection h with h1 _
            subst h1
            exact absurd hyx (lt_irrefl _)
        · have hq : x = y := le_antisymm (not_lt.mp hyx) (not_lt.mp hxy)
          subst hq
          rw [if_neg hxy, if_neg hyx, ih bs]
          simp

theorem bytesCmp_swap (a : List Byte) : ∀ b, (bytesCmp a b).swap = bytesCmp b a := by
  induction a with
  | nil => intro b; cases b <;> rfl
  | cons x as ih =>
    intro b
    cases b with
    | nil => rfl
    | cons y bs =>
      rw [bytesCmp_cons, bytesCmp_cons]
      by_cases hxy : x < y
      · rw [if_pos hxy, if_neg (lt_asymm hxy), if_pos hxy]
        rfl
      · by_cases hyx : y < x
        · rw [if_neg hxy, if_pos hyx, if_pos hyx]
          rfl
        · rw [if_neg hxy, if_neg hyx, if_neg hyx, if_neg hxy, ih bs]

theorem bytesCmp_lt_trans (a : List Byte) :
    ∀ b c, bytesCmp a b = .lt → bytesCmp b c = .lt → bytesCmp a c = .lt := by
  induction a with
  | nil =>
    intro b c hab hbc
    cases b with
    | nil => exact Ordering.noConfusion hab
    | cons y bs =>
      cases c with
      | nil => exact Ordering.noConfusion hbc
      | cons z cs => rfl
  | cons x as ih =>
    intro b c hab hbc
    cases b with
    | nil => exact Ordering.noConfusion hab
    | cons y bs =>
      cases c with
      | nil => exact Ordering.noConfusion hbc
      | cons z cs =>
        rw [bytesCmp_cons] at hab hbc ⊢
        by_cases hxy : x < y
        · by_cases hyz : y < z
          · rw [if_pos (hxy.trans hyz)]
          · by_cases hzy : z < y
            · rw [if_neg hyz, if_pos hzy] at hbc
              exact Ordering.noConfusion hbc
            · have hq : y = z := le_antisymm (not_lt.mp hzy) (not_lt.mp hyz)
              subst hq
              rw [if_pos hxy]
        · by_cases hyx : y < x
          · rw [if_neg hxy, if_pos hyx] at hab
            exact Ordering.noConfusion hab
          · have hq : x = y := le_antisymm (not_lt.mp hyx) (not_lt.mp hxy)
            subst hq
            rw [if_neg hxy, if_neg hyx] at hab
            by_cases hxz : x < z
            · rw [if_pos hxz]
            · by_cases hzx : z < x
              · rw [if_neg hxz, if_pos hzx] at hbc
                exact Ordering.noConfusion hbc
              · have hq2 : x = z := le_antisymm (not_lt.mp hzx) (not_lt.mp hxz)
                subst hq2
                rw [if_neg hxz, if_neg hxz] at hbc ⊢
                exact ih bs cs hab hbc

theorem stemCmp_eq_iff (s t : Stem) : stemCmp s t = .eq ↔ s = t := by
  rw [stemCmp, bytesCmp_eq_iff, List.ofFn_inj]

theorem stemLt_trans {s t u : Stem} (h1 : stemLt s t) (h2 : stemLt t u) :
    stemLt s u :=
  bytesCmp_lt_trans _ _ _ h1 h2

theorem stemLt_irrefl (s : Stem) : ¬ stemLt s s := by
  rw [stemLt, (stemCmp_eq_iff s s).mpr rfl]
  exact fun h => Ordering.noConfusion h

theorem stemCmp_gt_iff (s t : Stem) : stemCmp s t = .gt ↔ stemLt t s := by
  rw [stemLt, stemCmp, stemCmp, ← bytesCmp_swap]
  generalize bytesCmp (List.ofFn t) (List.ofFn s) = o
  cases o <;> decide

theorem stemLt_ne {s t : Stem} (h : stemLt s t) : s ≠ t := by
  intro he
  subst he
  exact stemLt_irrefl s h

/-! ## The sorted association-list model of the `BTreeMap` (claim C8) -/

theorem mem_keys_btInsert (s t : Stem) (d : Witness.SuffixStateDiff Value) :
    ∀ m : List (Stem × List (Witness.SuffixStateDiff Value)),
      t ∈ (btInsert s d m).map Prod.fst ↔ t = s ∨ t ∈ m.map Prod.fst
  | [] => by simp [btInsert]
  | (u, ds) :: m => by
    rw [btInsert]
    rcases hc : stemCmp s u with _ | _ | _
    · simp only [List.map_cons, List.mem_cons]
      try tauto
    · have hsu : s = u := (stemCmp_eq_iff s u).mp hc
      subst hsu
      simp only [List.map_cons, List.mem_cons]
      try tauto
    · simp only [List.map_cons, List.mem_cons, mem_keys_btInsert s t d m]
      try tauto

theorem btInsert_sorted (s : Stem) (d : Witness.SuffixStateDiff Value) :
    ∀ m : List (Stem × List (Witness.SuffixStateDiff Value)),
      (m.map Prod.fst).Pairwise stemLt →
      ((btInsert s d m).map Prod.fst).Pairwise stemLt
  | [], _ => by simp [btInsert]
  | (u, ds) :: m, h => by
    simp only [List.map_cons] at h
    rw [btInsert]
    rcases hc : stemCmp s u with _ | _ | _
    · simp only [List.map_cons]
      refine List.Pairwise.cons ?_ h
      intro x hx
      rcases List.mem_cons.mp hx with rfl | hx'
      · exact hc
      · exact stemLt_trans hc (List.rel_of_pairwise_cons h hx')
    · simp only [List.map_cons]
      exact h
    · simp only [List.map_cons]
      refine List.Pairwise.cons ?_
        (btInsert_sorted s d m (List.pairwise_cons.mp h).2)
      intro x hx
      rcases (mem_keys_btInsert s x d m).mp hx with rfl | hx'
      · exact (stemCmp_gt_iff _ u).mp hc
      · exact List.rel_of_pairwise_cons h hx'

theorem btGet_eq_nil_of_not_mem (s : Stem) :
    ∀ m : List (Stem × List (Witness.SuffixStateDiff Value)),
      s ∉ m.map Prod.fst → btGet s m = []
  | [], _ => rfl
  | (t, ds) :: m, h => by
    rw [btGet, if_neg (fun he => h (by simp [he])),
      btGet_eq_nil_of_not_mem s m (fun hm => h (by simp [hm]))]

theorem btGet_btInsert (t s : Stem) (d : Witness.SuffixStateDiff Value) :
    ∀ m : List (Stem × List (Witness.SuffixStateDiff Value)),
      (m.map Prod.fst).Pairwise stemLt →
      btGet t (btInsert s d m) = if t = s then btGet t m ++ [d] else btGet t m
  | [], _ => by
    by_cases hts : t = s <;> simp [btInsert, btGet, hts]
  | (u, ds) :: m, h => by
    simp only [List.map_cons] at h
    rw [btInsert]
    rcases hc : stemCmp s u with _ | _ | _
    · have hsu : s ≠ u := fun he => by
        rw [(stemCmp_eq_iff s u).mpr he] at hc
        exact Ordering.noConfusion hc
      have hsm : s ∉ ((u, ds) :: m).map Prod.fst := by
        simp only [List.map_cons, List.mem_cons]
        rintro (rfl | hmem)
        · exact hsu rfl
        · exact stemLt_irrefl s
            (stemLt_trans hc (List.rel_of_pairwise_cons h hmem))
      by_cases hts : t = s
      · subst hts
        rw [btGet, if_pos rfl, if_pos rfl, btGet_eq_nil_of_not_mem t _ hsm]
        rfl
      · rw [btGet, if_neg hts, if_neg hts]
    · have hsu : s = u := (stemCmp_eq_iff s u).mp hc
      subst hsu
      by_cases hts : t = s
      · subst hts
        rw [btGet, if_pos rfl, if_pos rfl, btGet, if_pos rfl]
      · rw [btGet, if_neg hts, if_neg hts, btGet, if_neg hts]
    · have hsu : s ≠ u := fun he => by
        rw [(stemCmp_eq_iff s u).mpr he] at hc
        exact Ordering.noConfusion hc
      by_cases htu : t = u
      · subst htu
        rw [btGet, if_pos rfl, if_neg (fun he => hsu (he.symm)), btGet, if_pos rfl]
      · rw [btGet, if_neg htu,
          btGet_btInsert t s d m (List.pairwise_cons.mp h).2, btGet, if_neg htu]

theorem btFold_eq (l : List (TrieKey × Value)) :
    btFold l = l.foldl (fun m kv => btInsert kv.1.stem (toDiff kv) m) [] := rfl

theorem btFold_sorted_aux (l : List (TrieKey × Value)) :
    ∀ m, (m.map Prod.fst).Pairwise stemLt →
      ((l.foldl (fun m kv => btInsert kv.1.stem (toDiff kv) m) m).map
        Prod.fst).Pairwise stemLt := by
  induction l with
  | nil => intro m h; exact h
  | cons kv l ih =>
    intro m h
    exact ih _ (btInsert_sorted _ _ m h)

theorem btFold_sorted (l : List (TrieKey × Value)) :
    ((btFold l).map Prod.fst).Pairwise stemLt := by
  rw [btFold_eq]
  exact btFold_sorted_aux l [] List.Pairwise.nil

theorem mem_keys_btFold_aux (t : Stem) (l : List (TrieKey × Value)) :
    ∀ m, (t ∈ ((l.foldl (fun m kv => btInsert kv.1.stem (toDiff kv) m) m).map
        Prod.fst) ↔
      t ∈ m.map Prod.fst ∨ t ∈ l.map (fun kv => kv.1.stem)) := by
  induction l with
  | nil => intro m; simp
  | cons kv l ih =>
    intro m
    rw [List.foldl_cons, ih, mem_keys_btInsert]
    simp only [List.map_cons, List.mem_cons]
    tauto

theorem mem_keys_btFold (t : Stem) (l : List (TrieKey × Value)) :
    t ∈ (btFold l).map Prod.fst ↔ t ∈ l.map (fun kv => kv.1.stem) := by
  rw [btFold_eq, mem_keys_btFold_aux]
  simp

theorem btGet_btFold_aux (s : Stem) (l : List (TrieKey × Value)) :
    ∀ m, (m.map Prod.fst).Pairwise stemLt →
      btGet s (l.foldl (fun m kv => btInsert kv.1.stem (toDiff kv) m) m) =
        btGet s m ++ (l.filter (fun kv => decide (kv.1.stem = s))).map toDiff := by
  induction l with
  | nil => intro m _; simp
  | cons kv l ih =>
    intro m hm
    rw [List.foldl_cons, ih _ (btInsert_sorted _ _ m hm),
      btGet_btInsert s kv.1.stem (toDiff kv) m hm]
    by_cases h : s = kv.1.stem
    · rw [if_pos h, List.filter_cons_of_pos (by simpa using h.symm),
        List.map_cons, List.append_assoc]
      rfl
    · rw [if_neg h,
        List.filter_cons_of_neg (by simpa using fun he => h he.symm)]

theorem btGet_btFold (s : Stem) (l : List (TrieKey × Value)) :
    btGet s (btFold l) =
      (l.filter (fun kv => decide (kv.1.stem = s))).map toDiff := by
  rw [btFold_eq, btGet_btFold_aux s l [] List.Pairwise.nil]
  rfl

theorem sorted_keys_ext : ∀ (l1 l2 : List Stem),
    l1.Pairwise stemLt → l2.Pairwise stemLt → (∀ s, s ∈ l1 ↔ s ∈ l2) → l1 = l2
  | [], [], _, _, _ => rfl
  | [], b :: l2, _, _, hm =>
    absurd ((hm b).mpr (List.mem_cons_self b l2)) (List.not_mem_nil b)
  | a :: l1, [], _, _, hm =>
    absurd ((hm a).mp (List.mem_cons_self a l1)) (List.not_mem_nil a)
  | a :: l1, b :: l2, h1, h2, hm => by
    have hab : a = b := by
      rcases List.mem_cons.mp ((hm a).mp (List.mem_cons_self a l1)) with h | h
      · exact h
      · have hba : stemLt b a := List.rel_of_pairwise_cons h2 h
        rcases List.mem_cons.mp ((hm b).mpr (List.mem_cons_self b l2)) with h' | h'
        · exact h'.symm
        · exact absurd (stemLt_trans hba (List.rel_of_pairwise_cons h1 h'))
            (stemLt_irrefl b)
    subst hab
    have hm' : ∀ s, s ∈ l1 ↔ s ∈ l2 := by
      intro s
      constructor
      · intro hs
        rcases List.mem_cons.mp ((hm s).mp (List.mem_cons_of_mem a hs)) with rfl | h'
        · exact absurd (List.rel_of_pairwise_cons h1 hs) (stemLt_irrefl s)
        · exact h'
      · intro hs
        rcases List.mem_cons.mp ((hm s).mpr (List.mem_cons_of_mem a hs)) with rfl | h'
        · exact absurd (List.rel_of_pairwise_cons h2 hs) (stemLt_irrefl s)
        · exact h'
    rw [sorted_keys_ext l1 l2 (List.pairwise_cons.mp h1).2
      (List.pairwise_cons.mp h2).2 hm']

theorem bt_forall₂_of_keys_eq :
    ∀ (m1 m2 : List (Stem × List (Witness.SuffixStateDiff Value))),
      (m1.map Prod.fst).Pairwise stemLt → (m2.map Prod.fst).Pairwise stemLt →
      m1.map Prod.fst = m2.map Prod.fst →
      (∀ s, (btGet s m1).Perm (btGet s m2)) →
      List.Forall₂ (fun p q => p.1 = q.1 ∧ p.2.Perm q.2) m1 m2
  | [], [], _, _, _, _ => List.Forall₂.nil
  | [], q :: m2, _, _, hk, _ => by simp at hk
  | p :: m1, [], _, _, hk, _ => by simp at hk
  | (s, ds) :: m1, (t, es) :: m2, h1, h2, hk, hg => by
    simp only [List.map_cons, List.cons.injEq] at hk
    obtain ⟨hst, hk'⟩ := hk
    subst hst
    simp only [List.map_cons] at h1 h2
    have hds : ds.Perm es := by
      have hgs := hg s
      rw [btGet, if_pos rfl, btGet, if_pos rfl] at hgs
      exact hgs
    refine List.Forall₂.cons ⟨rfl, hds⟩ ?_
    refine bt_forall₂_of_keys_eq m1 m2 (List.pairwise_cons.mp h1).2
      (List.pairwise_cons.mp h2).2 hk' ?_
    intro u
    by_cases hus : u = s
    · subst hus
      have hn1 : u ∉ m1.map Prod.fst := fun hmem =>
        stemLt_irrefl u (List.rel_of_pairwise_cons h1 hmem)
      have hn2 : u ∉ m2.map Prod.fst := fun hmem =>
        stemLt_irrefl u (List.rel_of_pairwise_cons h2 hmem)
      rw [btGet_eq_nil_of_not_mem u m1 hn1, btGet_eq_nil_of_not_mem u m2 hn2]
    · have hgu := hg u
      rw [btGet, if_neg hus, btGet, if_neg hus] at hgu
      exact hgu

theorem btFold_perm {w1 w2 : List (TrieKey × Value)} (h : w1.Perm w2) :
    List.Forall₂ (fun p q => p.1 = q.1 ∧ p.2.Perm q.2) (btFold w1) (btFold w2) := by
  have hs1 := btFold_sorted w1
  have hs2 := btFold_sorted w2
  have hkeys : (btFold w1).map Prod.fst = (btFold w2).map Prod.fst := by
    refine sorted_keys_ext _ _ hs1 hs2 (fun s => ?_)
    rw [mem_keys_btFold, mem_keys_btFold]
    exact (h.map _).mem_iff
  refine bt_forall₂_of_keys_eq _ _ hs1 hs2 hkeys (fun s => ?_)
  rw [btGet_btFold, btGet_btFold]
  exact (h.filter _).map _

/-! ## Two enumerations of one genesis file give permuted write lists -/

theorem accountInserts_perm (layout : Addr → AccountStorageLayout Value)
    (keccakVal : List Byte → Value) (u256Val : ℕ → Value)
    {p q : Addr × AccountAlloc Value} (h : AllocEntryEquiv p q) :
    (accountInserts layout keccakVal u256Val p).Perm
      (accountInserts layout keccakVal u256Val q) := by
  obtain ⟨a1, b1, n1, cd1, s1⟩ := p
  obtain ⟨a2, b2, n2, cd2, s2⟩ := q
  obtain ⟨ha, hb, hn, hc, hs⟩ := h
  dsimp only at ha hb hn hc hs
  subst ha; subst hb; subst hn; subst hc
  cases s1 with
  | none =>
    cases s2 with
    | none => exact List.Perm.refl _
    | some t => exact hs.elim
  | some s =>
    cases s2 with
    | none => exact hs.elim
    | some t =>
      simp only [accountInserts]
      exact List.Perm.append_left _ (hs.map _)

theorem forall₂_accountInserts (layout : Addr → AccountStorageLayout Value)
    (keccakVal : List Byte → Value) (u256Val : ℕ → Value) :
    ∀ {l1 l2 : List (Addr × AccountAlloc Value)},
      List.Forall₂ AllocEntryEquiv l1 l2 →
      List.Forall₂ List.Perm (l1.map (accountInserts layout keccakVal u256Val))
        (l2.map (accountInserts layout keccakVal u256Val))
  | _, _, .nil => List.Forall₂.nil
  | _, _, .cons h hs =>
    List.Forall₂.cons (accountInserts_perm layout keccakVal u256Val h)
      (forall₂_accountInserts layout keccakVal u256Val hs)

theorem genesisInserts_perm (layout : Addr → AccountStorageLayout Value)
    (keccakVal : List Byte → Value) (u256Val : ℕ → Value)
    {c1 c2 : GenesisConfig Addr Value} (h : ConfigEquiv c1 c2) :
    (genesisInserts layout keccakVal u256Val c1).Perm
      (genesisInserts layout keccakVal u256Val c2) := by
  obtain ⟨l, hp, hf⟩ := h
  rw [genesisInserts, genesisInserts]
  refine List.Perm.trans ((hp.map _).flatten) ?_
  exact List.Perm.flatten_congr (forall₂_accountInserts layout keccakVal u256Val hf)

/-- C8.  (Corrected.)  `generate_state_diff` is *not* byte-identical across
runs: the `alloc` and per-account `storage` `HashMap`s iterate in an
unspecified order, so the suffix diffs inside one stem can appear in a
different order on another run (see the counterexample).  What does hold, for
any two enumerations of the same genesis file: the outputs list the same
stems in the same position — sorted by natural byte order, the `BTreeMap`'s
key order — and the suffix-diff lists at each stem are permutations of each
other, with identical content. -/
theorem C8_genesis_diff_deterministic_up_to_suffix_order
    (layout : Addr → AccountStorageLayout Value) (keccakVal : List Byte → Value)
    (u256Val : ℕ → Value) (c1 c2 : GenesisConfig Addr Value)
    (h : ConfigEquiv c1 c2) :
    List.Forall₂ StemDiffEquiv (generateStateDiff layout keccakVal u256Val c1)
        (generateStateDiff layout keccakVal u256Val c2) ∧
      ((generateStateDiff layout keccakVal u256Val c1).map
          Witness.StemStateDiff.stem).Pairwise stemLt := by
  constructor
  · have hf := btFold_perm (genesisInserts_perm layout keccakVal u256Val h)
    rw [generateStateDiff, generateStateDiff]
    rw [List.forall₂_map_left_iff, List.forall₂_map_right_iff]
    exact hf.imp (fun a b hab => hab)
  · rw [generateStateDiff, List.map_map]
    exact btFold_sorted _

end Genesis

namespace Witness

/-! ## `into_stem_state_write` (claim C10) -/

variable {Value : Type}

/-- The collected `HashMap` holds, at each suffix, the value of the *last*
pair with that suffix: later `collect`ed pairs overwrite earlier ones. -/
theorem hashMapOfList_apply (s : Byte) (l : List (Byte × Value)) :
    hashMapOfList l s =
      (l.reverse.find? (fun p => decide (p.1 = s))).map Prod.snd := by
  induction l using List.reverseRecOn with
  | nil => rfl
  | append_singleton l p ih =>
    have hstep : hashMapOfList (l ++ [p]) s =
        Function.update (hashMapOfList l) p.1 (some p.2) s := by
      rw [hashMapOfList, List.foldl_append]
      rfl
    rw [hstep]
    rw [List.reverse_append, List.reverse_singleton, List.singleton_append]
    rw [Function.update_apply]
    by_cases h : s = p.1
    · rw [if_pos h, List.find?_cons_of_pos _ (by simp [h.symm])]
      rfl
    · rw [if_neg h, List.find?_cons_of_neg _ (by simp; exact fun hh => h hh.symm), ih]

/-- Looking up a suffix among the kept `(suffix, value)` pairs is looking up
the last suffix diff that carries a `new_value` there. -/
theorem find?_filterMap_snd (s : Byte) :
    ∀ L : List (SuffixStateDiff Value),
      ((L.filterMap (fun sd => sd.new_value.map (fun v => (sd.suffix, v)))).find?
          (fun p => decide (p.1 = s))).map Prod.snd =
        (L.find? (fun sd => decide (sd.suffix = s) && sd.new_value.isSome)).bind
          (fun sd => sd.new_value)
  | [] => rfl
  | sd :: L => by
    rw [List.filterMap_cons]
    by_cases hs : sd.suffix = s
    · cases hnv : sd.new_value with
      | none =>
        simp only [hnv, Option.map_none']
        rw [List.find?_cons_of_neg _ (by simp [hnv])]
        exact find?_filterMap_snd s L
      | some v =>
        simp only [hnv, Option.map_some']
        rw [List.find?_cons_of_pos _ (by simp [hs]),
          List.find?_cons_of_pos _ (by simp [hs, hnv])]
        simp [hnv]
    · cases hnv : sd.new_value with
      | none =>
        simp only [hnv, Option.map_none']
        rw [List.find?_cons_of_neg _ (by simp [hnv])]
        exact find?_filterMap_snd s L
      | some v =>
        simp only [hnv, Option.map_some']
        rw [List.find?_cons_of_neg _ (by simp [hs]),
          List.find?_cons_of_neg _ (by simp [hs])]
        exact find?_filterMap_snd s L

/-- `into_stem_state_write` returns `None` exactly when no suffix diff
carries a `new_value`. -/
theorem intoStemStateWrite_none_iff (d : StemStateDiff Value) :
    intoStemStateWrite d = none ↔ ∀ sd ∈ d.suffix_diffs, sd.new_value = none := by
  rw [intoStemStateWrite]
  by_cases he : (d.suffix_diffs.filterMap
      (fun sd => sd.new_value.map (fun v => (sd.suffix, v)))).isEmpty
  · rw [if_pos he]
    constructor
    · intro _ sd hsd
      exact Option.map_eq_none'.mp
        ((List.filterMap_eq_nil_iff.mp (List.isEmpty_iff.mp he)) sd hsd)
    · intro _; rfl
  · rw [if_neg he]
    constructor
    · intro h; exact Option.noConfusion h
    · intro hall
      exfalso
      apply he
      rw [List.isEmpty_iff, List.filterMap_eq_nil_iff]
      intro sd hsd
      rw [hall sd hsd]
      rfl

/-- When `into_stem_state_write` returns a write set, its stem is the diff's
stem and its map holds, at each suffix, the last `new_value` offered there. -/
theorem intoStemStateWrite_writes (d : StemStateDiff Value) (w : StemStateWrite Value)
    (h : intoStemStateWrite d = some w) :
    w.stem = d.stem ∧ ∀ s, w.writes s = lastNewValue d s := by
  rw [intoStemStateWrite] at h
  by_cases he : (d.suffix_diffs.filterMap
      (fun sd => sd.new_value.map (fun v => (sd.suffix, v)))).isEmpty
  · rw [if_pos he] at h
    exact Option.noConfusion h
  · rw [if_neg he] at h
    injection h with h
    subst h
    refine ⟨rfl, fun s => ?_⟩
    show hashMapOfList _ s = _
    rw [hashMapOfList_apply, ← List.filterMap_reverse, find?_filterMap_snd]
    rfl

/-- The `current_value` fields never affect `into_stem_state_write`. -/
theorem intoStemStateWrite_mapCurrents (f : SuffixStateDiff Value → Option Value)
    (d : StemStateDiff Value) :
    intoStemStateWrite (mapCurrents f d) = intoStemStateWrite d := by
  rw [intoStemStateWrite, intoStemStateWrite, mapCurrents]
  simp only [List.filterMap_map]
  rfl

/-- C10.  (Corrected.)  `into_stem_state_write` drops the suffix diffs with
no `new_value`, returns `None` exactly when all are dropped, and ignores
every `current_value` — but it does *not* keep all the remaining
`(suffix, value)` pairs: the kept pairs are `collect`ed into a
`HashMap<u8, _>`, so when several diffs share a suffix only the last pair
survives (see the counterexample); the map holds, at each suffix, the last
`new_value` offered there. -/
theorem C10_into_stem_state_write_spec (Value : Type) (d : Witness.StemStateDiff Value)
    (f : Witness.SuffixStateDiff Value → Option Value) :
    (Witness.intoStemStateWrite d = none ↔
        ∀ sd ∈ d.suffix_diffs, sd.new_value = none) ∧
      (∀ w, Witness.intoStemStateWrite d = some w →
        w.stem = d.stem ∧ ∀ s, w.writes s = Witness.lastNewValue d s) ∧
      Witness.intoStemStateWrite (Witness.mapCurrents f d) =
        Witness.intoStemStateWrite d :=
  ⟨Witness.intoStemStateWrite_none_iff d,
   fun w hw => Witness.intoStemStateWrite_writes d w hw,
   Witness.intoStemStateWrite_mapCurrents f d⟩

/-- C10 counterexample: a diff list with two `new_value`s at suffix `1`
produces a write set that has lost the earlier pair — "keeps the
suffix-to-value pairs of the rest" fails for duplicated suffixes. -/
theorem C10_duplicate_suffix_pair_dropped :
    ∃ w, Witness.intoStemStateWrite c10diff = some w ∧
      (⟨1, none, some false⟩ : Witness.SuffixStateDiff Bool) ∈ c10diff.suffix_diffs ∧
      w.writes 1 ≠ some false := by
  refine ⟨⟨stem0, Witness.hashMapOfList [(1, false), (1, true)]⟩, rfl, ?_, ?_⟩
  · simp [c10diff]
  · decide

end Witness

namespace Genesis

/-- C8 counterexample: two enumerations of the same one-account genesis file
(the storage `HashMap` iterated in two orders) produce outputs whose suffix
diffs appear in different orders inside the shared stem, so the output is not
byte-identical across runs. -/
theorem C8_two_runs_differ :
    ConfigEquiv cexCfgA cexCfgB ∧
      (generateStateDiff cexLayout (fun _ => ()) (fun _ => ()) cexCfgA).map
          (fun sd => sd.suffix_diffs.map (fun q => q.suffix)) ≠
        (generateStateDiff cexLayout (fun _ => ()) (fun _ => ()) cexCfgB).map
          (fun sd => sd.suffix_diffs.map (fun q => q.suffix)) := by
  constructor
  · exact ⟨cexCfgA.alloc, List.Perm.refl _,
      List.Forall₂.cons ⟨rfl, rfl, rfl, rfl, List.Perm.swap (1, ()) (0, ()) []⟩
        List.Forall₂.nil⟩
  · decide

/-- C8's amended theorem applied at the two concrete enumerations of the
one-account genesis file. -/
theorem C8_genesis_diff_deterministic_witness :
    ConfigEquiv cexCfgA cexCfgB ∧
      (List.Forall₂ StemDiffEquiv
          (generateStateDiff cexLayout (fun _ => ()) (fun _ => ()) cexCfgA)
          (generateStateDiff cexLayout (fun _ => ()) (fun _ => ()) cexCfgB) ∧
        ((generateStateDiff cexLayout (fun _ => ()) (fun _ => ()) cexCfgA).map
            Witness.StemStateDiff.stem).Pairwise stemLt) := by
  have hEquiv : ConfigEquiv cexCfgA cexCfgB :=
    ⟨cexCfgA.alloc, List.Perm.refl _,
      List.Forall₂.cons ⟨rfl, rfl, rfl, rfl, List.Perm.swap (1, ()) (0, ()) []⟩
        List.Forall₂.nil⟩
  exact ⟨hEquiv, C8_genesis_diff_deterministic_up_to_suffix_order cexLayout
    (fun _ => ()) (fun _ => ()) cexCfgA cexCfgB hEquiv⟩

end Genesis

namespace Pv

/-- C2 applied at the empty node over the concrete `ℤ` environment. -/
theorem C2_branch_commitment_consistency_witness :
    (Node.empty : Node ℤ Unit).WfComm zEnv ∧
      ((∀ (k : TrieKey) (v : Unit) (n' : Node ℤ Unit),
          Node.insert zEnv Node.empty k v = some n' → n'.WfComm zEnv) ∧
        (∀ (w : StemStateWrite Unit) (n' : Node ℤ Unit) (p : Option (List Byte)),
            Node.update zEnv Node.empty w = UpdateResult.ok n' p → n'.WfComm zEnv) ∧
        (∀ (i : Byte) (child : Node ℤ Unit), child.WfComm zEnv →
            (Node.empty.setChild zEnv i child).WfComm zEnv)) :=
  ⟨trivial, C2_branch_commitment_consistency zEnv Node.empty trivial⟩

/-- C4 applied at the all-empty branch at depth 0 over the concrete `ℤ`
environment. -/
theorem C4_bundle_commitment_eq_branch_witness :
    ((0 : ℤ) = ∑ i : Fin 256,
        zEnv.hash ((Node.empty : Node ℤ Unit).commitment) • zEnv.G i) ∧
      bundleCommitment
          ((Node.branch 0 (0 : ℤ) (fun _ => Node.empty) :
            Node ℤ Unit).extractBundleNode zEnv) =
        (Node.branch 0 (0 : ℤ) (fun _ => Node.empty) : Node ℤ Unit).commitment := by
  have h : (0 : ℤ) = ∑ i : Fin 256,
      zEnv.hash ((Node.empty : Node ℤ Unit).commitment) • zEnv.G i := by decide
  exact ⟨h, C4_bundle_commitment_eq_branch zEnv 0 0 (fun _ => Node.empty) h⟩

/-- C5 applied at the depth-0 root with one write to the all-zero stem. -/
theorem C5_update_created_branch_path_witness :
    Node.update zEnv pvRoot pvWrite = UpdateResult.ok pvOut.1 pvOut.2 ∧
      ((pvOut.2 = none →
          ∀ r, (pvOut.1).isBranchAt r = true → pvRoot.isBranchAt r = true) ∧
        (∀ q, pvOut.2 = some q → q = stemTakeList pvWrite.stem q.length ∧
          (pvOut.1).isBranchAt q = true ∧ pvRoot.isBranchAt q = false ∧
          (∀ r, (pvOut.1).isBranchAt r = true → pvRoot.isBranchAt r = false →
            q.length ≤ r.length))) := by
  have hup : Node.update zEnv pvRoot pvWrite = UpdateResult.ok pvOut.1 pvOut.2 := rfl
  exact ⟨hup, C5_update_created_branch_path zEnv pvRoot pvWrite pvOut.1 pvOut.2
    ⟨rfl, by omega, fun i => trivial⟩ hup⟩

/-- C6 applied at the depth-0 root with writes to the all-zero and all-one
stems. -/
theorem C6_independent_inserts_commute_witness :
    (⟨stem0, 0⟩ : TrieKey).stem ≠ (⟨stem1, 0⟩ : TrieKey).stem ∧
      (((Node.insert zEnv pvRoot ⟨stem0, 0⟩ ()).bind
            (fun m => Node.insert zEnv m ⟨stem1, 0⟩ ())).map Node.commitment =
        ((Node.insert zEnv pvRoot ⟨stem1, 0⟩ ()).bind
            (fun m => Node.insert zEnv m ⟨stem0, 0⟩ ())).map Node.commitment) := by
  have hne : (⟨stem0, 0⟩ : TrieKey).stem ≠ (⟨stem1, 0⟩ : TrieKey).stem := by decide
  exact ⟨hne, C6_independent_inserts_commute zEnv pvRoot ⟨stem0, 0⟩ ⟨stem1, 0⟩ () () hne⟩

end Pv

end PortalVerkle
